import Mathlib

/-!
Verification development for the cordacpp schema-driven binary decoder.

The repository ships the diagnostic driver (`experimental/cordacpp/main.cpp`);
the decoding core it exercises (ByteCursor, Schema Registry, Decoder Engine,
Opaque Blob wrapper, Diagnostic Dumper) lives in headers that are not part of
the repository snapshot.  Those components are therefore modelled from the
specification; each such definition carries a doc comment starting with
`Modelled from the spec:`.  The driver itself is embedded from `main.cpp`.

Bytes are modelled as natural numbers (a well-formed buffer holds values
`< 256`); buffers are `List Nat`.
-/

namespace Corda

/-! ## ByteCursor -/

/-- Modelled from the spec: `ByteCursor: {underlying buffer reference, current
offset, end offset}` — a bounds-checked forward reader over an immutable byte
sequence.  The source header defining it is not in the repository snapshot. -/
structure ByteCursor where
  buf : List Nat
  off : Nat
  stop : Nat
deriving Repr, DecidableEq

/-- Cursor created for a top-level parse call: covers the whole buffer. -/
def ByteCursor.mk0 (b : List Nat) : ByteCursor := ⟨b, 0, b.length⟩

/-- Modelled from the spec: `remaining()` reports bytes left. -/
def ByteCursor.remaining (c : ByteCursor) : Nat := c.stop - c.off

/-- Error kinds of the spec's taxonomy (§7), plus `depthExceeded`, which
models the spec's plan-acyclicity invariant ("no plan may reference itself
transitively without an opaque-blob boundary"): the engine carries a recursion
budget and a well-formed registry never exhausts it. -/
inductive ErrKind
  | truncatedInput
  | unknownSchema
  | duplicateSchema
  | unexpectedTrailingData
  | schemaMismatch
  | depthExceeded
deriving Repr, DecidableEq

/-- Modelled from the spec: `read(n)` returns exactly `n` bytes and advances
the cursor, or fails with `TruncatedInput` if fewer than `n` bytes remain.
Never copies the buffer; slices it. -/
def ByteCursor.read (c : ByteCursor) (n : Nat) : Except ErrKind (List Nat × ByteCursor) :=
  if c.remaining < n then .error .truncatedInput
  else .ok ((c.buf.drop c.off).take n, ⟨c.buf, c.off + n, c.stop⟩)

/-- Modelled from the spec: `peek(n)` behaves identically to `read(n)` without
advancing. -/
def ByteCursor.peek (c : ByteCursor) (n : Nat) : Except ErrKind (List Nat) :=
  if c.remaining < n then .error .truncatedInput
  else .ok ((c.buf.drop c.off).take n)

/-- The state transition of an in-place `read(n)` on a mutable cursor: on
success the cursor advances, on failure it is left unchanged. -/
def ByteCursor.stepRead (c : ByteCursor) (n : Nat) : ByteCursor :=
  match c.read n with
  | .ok (_, c') => c'
  | .error _ => c

/-- The cursor invariant: the window is well formed and lies inside the
underlying buffer. -/
def ByteCursor.WF (c : ByteCursor) : Prop :=
  c.off ≤ c.stop ∧ c.stop ≤ c.buf.length

instance (c : ByteCursor) : Decidable c.WF := by
  unfold ByteCursor.WF; infer_instance

/-! ## Big-endian fixed-width integers -/

/-- Value of a big-endian byte string. -/
def beNat : List Nat → Nat
  | [] => 0
  | b :: bs => b * 256 ^ bs.length + beNat bs

/-- `w`-byte big-endian encoding of `v` (truncating to `w` bytes). -/
def beBytes : Nat → Nat → List Nat
  | 0, _ => []
  | w + 1, v => (v / 256 ^ w) % 256 :: beBytes w (v % 256 ^ w)

theorem beBytes_length (w v : Nat) : (beBytes w v).length = w := by
  induction w generalizing v with
  | zero => rfl
  | succ w ih => simp [beBytes, ih]

theorem beNat_beBytes (w v : Nat) (h : v < 256 ^ w) : beNat (beBytes w v) = v := by
  induction w generalizing v with
  | zero => simpa [beBytes, beNat] using (Nat.lt_one_iff.mp h).symm
  | succ w ih =>
    have hlt : v % 256 ^ w < 256 ^ w := Nat.mod_lt _ (Nat.pos_pow_of_pos w (by norm_num))
    have hdiv : v / 256 ^ w < 256 := by
      have : v < 256 ^ w * 256 := by
        calc v < 256 ^ (w + 1) := h
        _ = 256 ^ w * 256 := by ring
      exact Nat.div_lt_of_lt_mul this
    simp only [beBytes, beNat, beBytes_length, ih _ hlt, Nat.mod_eq_of_lt hdiv]
    rw [Nat.mul_comm]
    exact Nat.div_add_mod v (256 ^ w)

/-! ## Schema data model -/

/-- Modelled from the spec: a `TypeDescriptor` is an immutable identifier
(fingerprint or qualified name) with structural equality. -/
abbrev TypeDescriptor := String

/-- Modelled from the spec: the primitive field kinds.  Numeric types use a
fixed byte width and big-endian order; strings are length-prefixed with an
unsigned 4-byte count.  The decode scenario `[0x01, 0x00,0x00,0x00,0x03,
'a','b','c'] ↦ {field1: "abc"}` additionally shows strings carrying one
marker byte before the length prefix; the decoder consumes and ignores it and
the encoder counterpart writes `0x01`. -/
inductive PrimKind
  | numeric (width : Nat)
  | str
deriving Repr, DecidableEq

/-- Modelled from the spec: field kind of a `FieldSpec`
(primitive | composite | opaque-blob | sequence), with the nested
`TypeDescriptor` for composites and the element kind for sequences. -/
inductive FieldKind
  | primitive (p : PrimKind)
  | composite (nested : TypeDescriptor)
  | sequence (elem : FieldKind)
  | opaqueBlob
deriving Repr, DecidableEq

/-- Modelled from the spec: one named field of a decoding plan. -/
structure FieldSpec where
  name : String
  kind : FieldKind
deriving Repr, DecidableEq

/-- Modelled from the spec: a `DecodingPlan` is the ordered field layout of
one record type; `extensible` marks an open-ended plan whose trailing wire
bytes are preserved rather than rejected. -/
structure DecodingPlan where
  fields : List FieldSpec
  extensible : Bool
deriving Repr, DecidableEq

/-! ## Schema Registry -/

/-- Modelled from the spec: the Schema Registry maps type descriptors to
decoding plans. -/
abbrev Registry := List (TypeDescriptor × DecodingPlan)

/-- Lookup of the plan bound to a descriptor, if any. -/
def Registry.find (reg : Registry) (d : TypeDescriptor) : Option DecodingPlan :=
  match reg with
  | [] => none
  | (d', p) :: rest => if d' = d then some p else Registry.find rest d

/-- Modelled from the spec: `resolve(descriptor) -> plan` fails with
`UnknownSchema` if absent. -/
def Registry.resolve (reg : Registry) (d : TypeDescriptor) : Except ErrKind DecodingPlan :=
  match reg.find d with
  | none => .error .unknownSchema
  | some p => .ok p

/-- Modelled from the spec: `register(descriptor, plan)` inserts or fails with
`DuplicateSchema` if the descriptor is already bound to a different plan;
re-registration with an identical plan is permitted and is a no-op. -/
def Registry.register (reg : Registry) (d : TypeDescriptor) (p : DecodingPlan) :
    Except ErrKind Registry :=
  match reg.find d with
  | some p' => if p' = p then .ok reg else .error .duplicateSchema
  | none => .ok ((d, p) :: reg)

/-! ## Decoded values -/

/-- Modelled from the spec: `OpaqueBlob: {byte range reference into the
original buffer (borrowed, not copied), declared length}`. -/
structure OpaqueBlob where
  data : List Nat
  start : Nat
  len : Nat
deriving Repr, DecidableEq

/-- The byte content an opaque blob refers to. -/
def OpaqueBlob.bytes (b : OpaqueBlob) : List Nat := (b.data.drop b.start).take b.len

/-- Modelled from the spec: `DecodedValue` is a tagged variant over primitive
scalars, ordered sequences, named composites and opaque blobs. -/
inductive DecodedValue
  | num (v : Nat)
  | str (s : String)
  | seq (elems : List DecodedValue)
  | comp (fields : List (String × DecodedValue))
  | blob (b : OpaqueBlob)

/-- A decode error: the kind together with the field path at which it
occurred (sequence of field names from the root). -/
structure DecodeError where
  kind : ErrKind
  path : List String
deriving Repr, DecidableEq

mutual

/-- Structural normal form of a decoded value: blobs are canonicalised to the
bytes they denote, so `absV v = absV w` is structural equality of `v` and `w`
(two blobs are structurally equal when they refer to equal byte content, even
when borrowed from different buffers). -/
def absV : DecodedValue → DecodedValue
  | .num v => .num v
  | .str s => .str s
  | .seq es => .seq (absL es)
  | .comp fs => .comp (absF fs)
  | .blob b => .blob ⟨b.bytes, 0, b.bytes.length⟩

def absL : List DecodedValue → List DecodedValue
  | [] => []
  | v :: vs => absV v :: absL vs

def absF : List (String × DecodedValue) → List (String × DecodedValue)
  | [] => []
  | (n, v) :: fs => (n, absV v) :: absF fs

end

/-- A blob occurring somewhere inside a decoded value graph. -/
inductive BlobIn (b : OpaqueBlob) : DecodedValue → Prop
  | base : BlobIn b (.blob b)
  | inSeq {vs : List DecodedValue} {v : DecodedValue} :
      v ∈ vs → BlobIn b v → BlobIn b (.seq vs)
  | inComp {fs : List (String × DecodedValue)} {n : String} {v : DecodedValue} :
      (n, v) ∈ fs → BlobIn b v → BlobIn b (.comp fs)

/-! ## Decoder Engine

Modelled from the spec (§4.3): `decode(descriptor, cursor)` resolves the plan
and reads the fields in plan order; primitives use fixed-width big-endian or
length-prefixed encodings, composites are decoded inline on the same cursor
through their registered plan, sequences read a 4-byte count prefix followed
by that many elements, and opaque blobs read a 4-byte length prefix and
capture a borrowed byte range without interpreting it.  `fuel` bounds
composite nesting, modelling the spec's plan-acyclicity invariant. -/

mutual

def decodeField (fuel : Nat) (reg : Registry) (path : List String) (k : FieldKind)
    (c : ByteCursor) : Except DecodeError (DecodedValue × ByteCursor) :=
  match k with
  | .primitive (.numeric w) =>
    match c.read w with
    | .error e => .error ⟨e, path⟩
    | .ok (bs, c1) => .ok (.num (beNat bs), c1)
  | .primitive .str =>
    match c.read 1 with
    | .error e => .error ⟨e, path⟩
    | .ok (_, c1) =>
      match c1.read 4 with
      | .error e => .error ⟨e, path⟩
      | .ok (pre, c2) =>
        match c2.read (beNat pre) with
        | .error e => .error ⟨e, path⟩
        | .ok (bs, c3) => .ok (.str (String.mk (bs.map Char.ofNat)), c3)
  | .opaqueBlob =>
    match c.read 4 with
    | .error e => .error ⟨e, path⟩
    | .ok (pre, c1) =>
      match c1.read (beNat pre) with
      | .error e => .error ⟨e, path⟩
      | .ok (_, c2) => .ok (.blob ⟨c1.buf, c1.off, beNat pre⟩, c2)
  | .sequence ek =>
    match c.read 4 with
    | .error e => .error ⟨e, path⟩
    | .ok (pre, c1) =>
      match decodeElems fuel reg path ek (beNat pre) c1 with
      | .error e => .error e
      | .ok (vs, c2) => .ok (.seq vs, c2)
  | .composite d =>
    match fuel with
    | 0 => .error ⟨.depthExceeded, path⟩
    | fuel' + 1 =>
      match reg.find d with
      | none => .error ⟨.unknownSchema, path⟩
      | some p =>
        match decodeFields fuel' reg path p.fields c with
        | .error e => .error e
        | .ok (fs, c1) => .ok (.comp fs, c1)
termination_by (fuel, sizeOf k, 0)

def decodeElems (fuel : Nat) (reg : Registry) (path : List String) (ek : FieldKind)
    (n : Nat) (c : ByteCursor) : Except DecodeError (List DecodedValue × ByteCursor) :=
  match n with
  | 0 => .ok ([], c)
  | n + 1 =>
    match decodeField fuel reg path ek c with
    | .error e => .error e
    | .ok (v, c1) =>
      match decodeElems fuel reg path ek n c1 with
      | .error e => .error e
      | .ok (vs, c2) => .ok (v :: vs, c2)
termination_by (fuel, sizeOf ek, n + 1)

def decodeFields (fuel : Nat) (reg : Registry) (path : List String)
    (flds : List FieldSpec) (c : ByteCursor) :
    Except DecodeError (List (String × DecodedValue) × ByteCursor) :=
  match flds with
  | [] => .ok ([], c)
  | ⟨nm, k⟩ :: rest =>
    match decodeField fuel reg (path ++ [nm]) k c with
    | .error e => .error e
    | .ok (v, c1) =>
      match decodeFields fuel reg path rest c1 with
      | .error e => .error e
      | .ok (vs, c2) => .ok ((nm, v) :: vs, c2)
termination_by (fuel, sizeOf flds, 0)

end

/-- Modelled from the spec: the Decoder Engine entry point on a cursor:
resolve the plan, decode the fields in order, and reject unknown trailing
wire data (`UnexpectedTrailingData`) unless the plan is extensible, in which
case trailing bytes are preserved as an additional OpaqueBlob tail. -/
def decodeCursor (fuel : Nat) (reg : Registry) (d : TypeDescriptor) (c : ByteCursor) :
    Except DecodeError DecodedValue :=
  match reg.find d with
  | none => .error ⟨.unknownSchema, []⟩
  | some p =>
    match decodeFields fuel reg [] p.fields c with
    | .error e => .error e
    | .ok (vs, c1) =>
      if c1.remaining = 0 then .ok (.comp vs)
      else if p.extensible then
        .ok (.comp (vs ++ [("_tail", .blob ⟨c1.buf, c1.off, c1.remaining⟩)]))
      else .error ⟨.unexpectedTrailingData, []⟩

/-- Modelled from the spec: `decode(descriptor, bytes)` — create a ByteCursor
over the whole buffer and run the Decoder Engine. -/
def decode (fuel : Nat) (reg : Registry) (d : TypeDescriptor) (bytes : List Nat) :
    Except DecodeError DecodedValue :=
  decodeCursor fuel reg d (ByteCursor.mk0 bytes)

/-- Modelled from the spec: `OpaqueBlob.as(descriptor)` constructs a fresh
ByteCursor over the blob's byte range and delegates to the Decoder Engine. -/
def OpaqueBlob.as (b : OpaqueBlob) (fuel : Nat) (reg : Registry) (d : TypeDescriptor) :
    Except DecodeError DecodedValue :=
  decodeCursor fuel reg d ⟨b.data, b.start, b.start + b.len⟩

/-! ## Encoder counterpart

Modelled from the spec (§8): an encoder counterpart built for testing the
round-trip property.  It writes exactly the wire format the decoder reads:
fixed-width big-endian numerics, a `0x01` marker byte plus 4-byte length
prefix plus bytes for strings, 4-byte length prefix plus raw bytes for
blobs, 4-byte count prefix plus elements for sequences, and inline
concatenation of the registered plan's fields for composites. -/

mutual

def encodeField (reg : Registry) : FieldKind → DecodedValue → List Nat
  | .primitive (.numeric w), .num v => beBytes w v
  | .primitive .str, .str s => 1 :: beBytes 4 s.length ++ s.data.map Char.toNat
  | .opaqueBlob, .blob b => beBytes 4 b.len ++ b.bytes
  | .sequence ek, .seq vs => beBytes 4 vs.length ++ encodeElems reg ek vs
  | .composite d, .comp fs =>
    match reg.find d with
    | some p => encodeFields reg p.fields fs
    | none => []
  | _, _ => []

def encodeElems (reg : Registry) (ek : FieldKind) : List DecodedValue → List Nat
  | [] => []
  | v :: vs => encodeField reg ek v ++ encodeElems reg ek vs

def encodeFields (reg : Registry) : List FieldSpec → List (String × DecodedValue) → List Nat
  | [], _ => []
  | _, [] => []
  | spec :: specs, (_, v) :: fs => encodeField reg spec.kind v ++ encodeFields reg specs fs

end

mutual

/-- Modelled from the spec: a value is valid for a field kind when it has the
shape the kind declares and fits the wire format (numeric values fit their
width, string characters are bytes, lengths fit the 4-byte prefix, blob
ranges lie inside their buffer, composite fields match the registered plan
in name and order).  `fuel` bounds composite nesting as in the decoder. -/
def validFor (fuel : Nat) (reg : Registry) : FieldKind → DecodedValue → Bool
  | .primitive (.numeric w), .num v => v < 256 ^ w
  | .primitive .str, .str s =>
    s.data.all (fun ch => ch.toNat < 256) && s.length < 256 ^ 4
  | .opaqueBlob, .blob b => b.start + b.len ≤ b.data.length && b.len < 256 ^ 4
  | .sequence ek, .seq vs => vs.length < 256 ^ 4 && validElems fuel reg ek vs
  | .composite d, .comp fs =>
    match fuel with
    | 0 => false
    | fuel' + 1 =>
      match reg.find d with
      | none => false
      | some p => validFields fuel' reg p.fields fs
  | _, _ => false

def validElems (fuel : Nat) (reg : Registry) (ek : FieldKind) : List DecodedValue → Bool
  | [] => true
  | v :: vs => validFor fuel reg ek v && validElems fuel reg ek vs

def validFields (fuel : Nat) (reg : Registry) :
    List FieldSpec → List (String × DecodedValue) → Bool
  | [], [] => true
  | spec :: specs, (n, v) :: fs =>
    n = spec.name && validFor fuel reg spec.kind v && validFields fuel reg specs fs
  | _, _ => false

end

/-! ## Static wire-format measures -/

mutual

/-- Minimum number of wire bytes a field of kind `k` can occupy: the fixed
width for numerics, marker plus length prefix for strings, the length/count
prefix for blobs and sequences, and the sum over the registered plan's
fields for composites. -/
def minLenField (fuel : Nat) (reg : Registry) : FieldKind → Nat
  | .primitive (.numeric w) => w
  | .primitive .str => 5
  | .opaqueBlob => 4
  | .sequence _ => 4
  | .composite d =>
    match fuel with
    | 0 => 0
    | fuel' + 1 =>
      match reg.find d with
      | none => 0
      | some p => minLenFields fuel' reg p.fields
termination_by k => (fuel, sizeOf k)

def minLenFields (fuel : Nat) (reg : Registry) : List FieldSpec → Nat
  | [] => 0
  | ⟨_, k⟩ :: rest => minLenField fuel reg k + minLenFields fuel reg rest
termination_by flds => (fuel, sizeOf flds)

end

mutual

/-- A field kind is well formed for the registry at a given fuel when every
composite descriptor reachable from it (outside opaque-blob boundaries)
resolves and its nesting stays within the fuel.  This is the decidable
rendering of the spec's invariant that plans resolve and do not reference
themselves transitively without an opaque-blob boundary. -/
def fieldWF (fuel : Nat) (reg : Registry) : FieldKind → Bool
  | .primitive _ => true
  | .opaqueBlob => true
  | .sequence ek => fieldWF fuel reg ek
  | .composite d =>
    match fuel with
    | 0 => false
    | fuel' + 1 =>
      match reg.find d with
      | none => false
      | some p => fieldsWF fuel' reg p.fields
termination_by k => (fuel, sizeOf k)

def fieldsWF (fuel : Nat) (reg : Registry) : List FieldSpec → Bool
  | [] => true
  | ⟨_, k⟩ :: rest => fieldWF fuel reg k && fieldsWF fuel reg rest
termination_by flds => (fuel, sizeOf flds)

end

/-! ## Diagnostic Dumper -/

/-- Modelled from the spec: ASCII rendering of one byte in the dump; a
placeholder glyph replaces non-printable bytes rather than failing. -/
def renderByte (b : Nat) : Char :=
  if 32 ≤ b ∧ b ≤ 126 then Char.ofNat b else '.'

/-- Lower-case hex digit. -/
def hexDigit (n : Nat) : Char :=
  if n < 10 then Char.ofNat (48 + n) else Char.ofNat (87 + n)

/-- Two-digit hex rendering of a byte. -/
def hexByte (b : Nat) : String :=
  String.mk [hexDigit (b / 16 % 16), hexDigit (b % 16)]

/-- Split a byte list into rows of 16 for the fixed-width dump. -/
def rows16 : List Nat → List (List Nat)
  | [] => []
  | b :: rest => ((b :: rest).take 16) :: rows16 ((b :: rest).drop 16)
termination_by bs => bs.length

/-- One dump row: space-separated hex bytes, two spaces, ASCII column. -/
def dumpRow (bs : List Nat) : String :=
  String.intercalate " " (bs.map hexByte) ++ "  " ++ String.mk (bs.map renderByte)

/-- Modelled from the spec: `dump(bytes)` renders a fixed-width hex/ASCII
view of a byte range; a pure function with no failure modes, falling back to
a placeholder glyph for non-printable bytes. -/
def dump (bs : List Nat) : String :=
  String.intercalate "\n" ((rows16 bs).map dumpRow)

/-! ## Driver (from src/experimental/cordacpp/main.cpp) -/

/-- Observable outcome of one driver run. -/
structure DriverResult where
  exitCode : Nat
  errOut : Option String
  parsedOuter : Bool
  dumped : Bool
  parsedInner : Bool
deriving Repr, DecidableEq

/-- Embedded from `main.cpp`: the driver reads the input file into `bits`
(a failed open yields an empty string, as does an empty file); if `bits` is
empty it prints `Failed to read file` to stderr and returns 1; otherwise it
parses the outer `SignedTransaction`, dumps `tx_bits`, parses the inner
`WireTransaction`, and returns 0.  The parse and dump internals live in
headers outside the repository snapshot; the driver model records that they
were invoked. -/
def mainDriver (bits : List Nat) : DriverResult :=
  if bits.isEmpty then
    { exitCode := 1, errOut := some "Failed to read file"
      parsedOuter := false, dumped := false, parsedInner := false }
  else
    { exitCode := 0, errOut := none
      parsedOuter := true, dumped := true, parsedInner := true }

/-! ## Unfolding lemmas for the decoder -/

theorem decodeField_numeric (fuel : Nat) (reg : Registry) (path : List String)
    (w : Nat) (c : ByteCursor) :
    decodeField fuel reg path (.primitive (.numeric w)) c =
      match c.read w with
      | .error e => .error ⟨e, path⟩
      | .ok (bs, c1) => .ok (.num (beNat bs), c1) := by
  rw [decodeField]

theorem decodeField_str (fuel : Nat) (reg : Registry) (path : List String) (c : ByteCursor) :
    decodeField fuel reg path (.primitive .str) c =
      match c.read 1 with
      | .error e => .error ⟨e, path⟩
      | .ok (_, c1) =>
        match c1.read 4 with
        | .error e => .error ⟨e, path⟩
        | .ok (pre, c2) =>
          match c2.read (beNat pre) with
          | .error e => .error ⟨e, path⟩
          | .ok (bs, c3) => .ok (.str (String.mk (bs.map Char.ofNat)), c3) := by
  rw [decodeField]

theorem decodeField_blob (fuel : Nat) (reg : Registry) (path : List String) (c : ByteCursor) :
    decodeField fuel reg path .opaqueBlob c =
      match c.read 4 with
      | .error e => .error ⟨e, path⟩
      | .ok (pre, c1) =>
        match c1.read (beNat pre) with
        | .error e => .error ⟨e, path⟩
        | .ok (_, c2) => .ok (.blob ⟨c1.buf, c1.off, beNat pre⟩, c2) := by
  rw [decodeField]

theorem decodeField_seq (fuel : Nat) (reg : Registry) (path : List String)
    (ek : FieldKind) (c : ByteCursor) :
    decodeField fuel reg path (.sequence ek) c =
      match c.read 4 with
      | .error e => .error ⟨e, path⟩
      | .ok (pre, c1) =>
        match decodeElems fuel reg path ek (beNat pre) c1 with
        | .error e => .error e
        | .ok (vs, c2) => .ok (.seq vs, c2) := by
  rw [decodeField]

theorem decodeField_comp_zero (reg : Registry) (path : List String)
    (d : TypeDescriptor) (c : ByteCursor) :
    decodeField 0 reg path (.composite d) c = .error ⟨.depthExceeded, path⟩ := by
  rw [decodeField]

theorem decodeField_comp_succ (fuel : Nat) (reg : Registry) (path : List String)
    (d : TypeDescriptor) (c : ByteCursor) :
    decodeField (fuel + 1) reg path (.composite d) c =
      match reg.find d with
      | none => .error ⟨.unknownSchema, path⟩
      | some p =>
        match decodeFields fuel reg path p.fields c with
        | .error e => .error e
        | .ok (fs, c1) => .ok (.comp fs, c1) := by
  rw [decodeField]

theorem decodeElems_zero (fuel : Nat) (reg : Registry) (path : List String)
    (ek : FieldKind) (c : ByteCursor) :
    decodeElems fuel reg path ek 0 c = .ok ([], c) := by
  rw [decodeElems]

theorem decodeElems_succ (fuel : Nat) (reg : Registry) (path : List String)
    (ek : FieldKind) (n : Nat) (c : ByteCursor) :
    decodeElems fuel reg path ek (n + 1) c =
      match decodeField fuel reg path ek c with
      | .error e => .error e
      | .ok (v, c1) =>
        match decodeElems fuel reg path ek n c1 with
        | .error e => .error e
        | .ok (vs, c2) => .ok (v :: vs, c2) := by
  rw [decodeElems]

theorem decodeFields_nil (fuel : Nat) (reg : Registry) (path : List String) (c : ByteCursor) :
    decodeFields fuel reg path [] c = .ok ([], c) := by
  rw [decodeFields]

theorem decodeFields_cons (fuel : Nat) (reg : Registry) (path : List String)
    (nm : String) (k : FieldKind) (rest : List FieldSpec) (c : ByteCursor) :
    decodeFields fuel reg path (⟨nm, k⟩ :: rest) c =
      match decodeField fuel reg (path ++ [nm]) k c with
      | .error e => .error e
      | .ok (v, c1) =>
        match decodeFields fuel reg path rest c1 with
        | .error e => .error e
        | .ok (vs, c2) => .ok ((nm, v) :: vs, c2) := by
  rw [decodeFields]

/-! ## Basic cursor lemmas -/

theorem ByteCursor.read_of_le {c : ByteCursor} {n : Nat} (h : n ≤ c.remaining) :
    c.read n = .ok ((c.buf.drop c.off).take n, ⟨c.buf, c.off + n, c.stop⟩) := by
  simp [ByteCursor.read, Nat.not_lt.mpr h]

theorem ByteCursor.read_of_lt {c : ByteCursor} {n : Nat} (h : c.remaining < n) :
    c.read n = .error .truncatedInput := by
  simp [ByteCursor.read, h]

theorem ByteCursor.read_ok_inv {c : ByteCursor} {n : Nat} {bs : List Nat} {c' : ByteCursor}
    (h : c.read n = .ok (bs, c')) :
    n ≤ c.remaining ∧ bs = (c.buf.drop c.off).take n ∧
      c' = ⟨c.buf, c.off + n, c.stop⟩ := by
  unfold ByteCursor.read at h
  split at h
  · simp at h
  · rename_i hnot
    refine ⟨Nat.not_lt.mp hnot, ?_, ?_⟩ <;> simp_all

/-- Reading `n` bytes at position `i` of a buffer whose suffix at `i` starts
with `xs`: the read succeeds, returns the first `n` bytes of `xs`, and the
suffix at the new position starts with `xs.drop n`. -/
theorem read_drop {buf : List Nat} {i : Nat} {xs post : List Nat} {n : Nat}
    (hd : buf.drop i = xs ++ post) (hn : n ≤ xs.length) :
    ByteCursor.read ⟨buf, i, buf.length⟩ n
      = .ok (xs.take n, ⟨buf, i + n, buf.length⟩) ∧
      buf.drop (i + n) = xs.drop n ++ post := by
  have hlen : buf.length - i = xs.length + post.length := by
    have := congrArg List.length hd
    simpa using this
  have h1 := ByteCursor.read_of_le (c := ⟨buf, i, buf.length⟩) (n := n) (by
    simpa [ByteCursor.remaining, hlen] using (by omega : n ≤ buf.length - i))
  constructor
  · rw [h1, hd, List.take_append_of_le_length hn]
  · rw [← List.drop_drop, hd, List.drop_append_of_le_length hn]

theorem ByteCursor.read_err_inv {c : ByteCursor} {n : Nat} {err : ErrKind}
    (h : c.read n = .error err) : err = .truncatedInput ∧ c.remaining < n := by
  unfold ByteCursor.read at h
  split at h
  · rename_i hlt
    simp at h
    exact ⟨h.symm, hlt⟩
  · simp at h

/-! ## Error characterization: well-formed schemas fail only by truncation -/

/-- Under a well-formed registry/schema, every failure of the field decoder
is a `TruncatedInput` failure. -/
theorem decode_errKind (fuel : Nat) :
    (∀ (reg : Registry) (path : List String) (k : FieldKind) (c : ByteCursor) (e : DecodeError),
        fieldWF fuel reg k = true → decodeField fuel reg path k c = .error e →
        e.kind = .truncatedInput) ∧
    (∀ (reg : Registry) (path : List String) (ek : FieldKind) (n : Nat) (c : ByteCursor)
        (e : DecodeError), fieldWF fuel reg ek = true →
        decodeElems fuel reg path ek n c = .error e → e.kind = .truncatedInput) ∧
    (∀ (reg : Registry) (path : List String) (flds : List FieldSpec) (c : ByteCursor)
        (e : DecodeError), fieldsWF fuel reg flds = true →
        decodeFields fuel reg path flds c = .error e → e.kind = .truncatedInput) := by
  induction fuel using Nat.strong_induction_on with
  | _ fuel IH =>
  have hfield : ∀ (reg : Registry) (path : List String) (k : FieldKind) (c : ByteCursor)
      (e : DecodeError), fieldWF fuel reg k = true → decodeField fuel reg path k c = .error e →
      e.kind = .truncatedInput := by
    intro reg path k
    induction k with
    | primitive p =>
      intro c e _ hdec
      cases p with
      | numeric w =>
        rw [decodeField_numeric] at hdec
        cases hr : c.read w with
        | error err =>
          rw [hr] at hdec
          simp at hdec
          obtain ⟨htr, _⟩ := ByteCursor.read_err_inv hr
          rw [← hdec, htr]
        | ok r =>
          obtain ⟨bs, c1⟩ := r
          rw [hr] at hdec
          simp at hdec
      | str =>
        rw [decodeField_str] at hdec
        cases hr1 : c.read 1 with
        | error err =>
          rw [hr1] at hdec
          simp at hdec
          obtain ⟨htr, _⟩ := ByteCursor.read_err_inv hr1
          rw [← hdec, htr]
        | ok r1 =>
          obtain ⟨bs1, c1⟩ := r1
          rw [hr1] at hdec
          simp only at hdec
          cases hr4 : c1.read 4 with
          | error err =>
            rw [hr4] at hdec
            simp at hdec
            obtain ⟨htr, _⟩ := ByteCursor.read_err_inv hr4
            rw [← hdec, htr]
          | ok r4 =>
            obtain ⟨pre, c2⟩ := r4
            rw [hr4] at hdec
            simp only at hdec
            cases hrn : c2.read (beNat pre) with
            | error err =>
              rw [hrn] at hdec
              simp at hdec
              obtain ⟨htr, _⟩ := ByteCursor.read_err_inv hrn
              rw [← hdec, htr]
            | ok rn =>
              obtain ⟨bs, c3⟩ := rn
              rw [hrn] at hdec
              simp at hdec
    | opaqueBlob =>
      intro c e _ hdec
      rw [decodeField_blob] at hdec
      cases hr4 : c.read 4 with
      | error err =>
        rw [hr4] at hdec
        simp at hdec
        obtain ⟨htr, _⟩ := ByteCursor.read_err_inv hr4
        rw [← hdec, htr]
      | ok r4 =>
        obtain ⟨pre, c1⟩ := r4
        rw [hr4] at hdec
        simp only at hdec
        cases hrn : c1.read (beNat pre) with
        | error err =>
          rw [hrn] at hdec
          simp at hdec
          obtain ⟨htr, _⟩ := ByteCursor.read_err_inv hrn
          rw [← hdec, htr]
        | ok rn =>
          obtain ⟨bs, c2⟩ := rn
          rw [hrn] at hdec
          simp at hdec
    | sequence ek ihek =>
      intro c e hwf hdec
      have hwfe : fieldWF fuel reg ek = true := by
        rw [fieldWF] at hwf
        exact hwf
      have helems : ∀ (n : Nat) (c : ByteCursor) (e : DecodeError),
          decodeElems fuel reg path ek n c = .error e → e.kind = .truncatedInput := by
        intro n
        induction n with
        | zero =>
          intro c e h
          rw [decodeElems_zero] at h
          simp at h
        | succ n ihn =>
          intro c e h
          rw [decodeElems_succ] at h
          cases hf : decodeField fuel reg path ek c with
          | error e' =>
            rw [hf] at h
            simp at h
            rw [← h]
            exact ihek c e' hwfe hf
          | ok r =>
            obtain ⟨v, c1⟩ := r
            rw [hf] at h
            simp only at h
            cases hrest : decodeElems fuel reg path ek n c1 with
            | error e' =>
              rw [hrest] at h
              simp at h
              rw [← h]
              exact ihn c1 e' hrest
            | ok r2 =>
              obtain ⟨vs, c2⟩ := r2
              rw [hrest] at h
              simp at h
      rw [decodeField_seq] at hdec
      cases hr4 : c.read 4 with
      | error err =>
        rw [hr4] at hdec
        simp at hdec
        obtain ⟨htr, _⟩ := ByteCursor.read_err_inv hr4
        rw [← hdec, htr]
      | ok r4 =>
        obtain ⟨pre, c1⟩ := r4
        rw [hr4] at hdec
        simp only at hdec
        cases hel : decodeElems fuel reg path ek (beNat pre) c1 with
        | error e' =>
          rw [hel] at hdec
          simp at hdec
          rw [← hdec]
          exact helems _ c1 e' hel
        | ok r2 =>
          obtain ⟨vs, c2⟩ := r2
          rw [hel] at hdec
          simp at hdec
    | composite d =>
      intro c e hwf hdec
      cases fuel with
      | zero =>
        rw [fieldWF] at hwf
        simp at hwf
      | succ fuel' =>
        rw [fieldWF] at hwf
        cases hfind : reg.find d with
        | none => rw [hfind] at hwf; simp at hwf
        | some p =>
          rw [hfind] at hwf
          simp only at hwf
          rw [decodeField_comp_succ, hfind] at hdec
          simp only at hdec
          cases hfs : decodeFields fuel' reg path p.fields c with
          | error e' =>
            rw [hfs] at hdec
            simp at hdec
            rw [← hdec]
            exact (IH fuel' (Nat.lt_succ_self fuel')).2.2 reg path p.fields c e' hwf hfs
          | ok r =>
            obtain ⟨vs, c1⟩ := r
            rw [hfs] at hdec
            simp at hdec
  have hfields : ∀ (reg : Registry) (path : List String) (flds : List FieldSpec)
      (c : ByteCursor) (e : DecodeError), fieldsWF fuel reg flds = true →
      decodeFields fuel reg path flds c = .error e → e.kind = .truncatedInput := by
    intro reg path flds
    induction flds with
    | nil =>
      intro c e _ h
      rw [decodeFields_nil] at h
      simp at h
    | cons f rest ihr =>
      obtain ⟨nm, k⟩ := f
      intro c e hwf h
      rw [fieldsWF] at hwf
      simp only [Bool.and_eq_true] at hwf
      rw [decodeFields_cons] at h
      cases hf : decodeField fuel reg (path ++ [nm]) k c with
      | error e' =>
        rw [hf] at h
        simp at h
        rw [← h]
        exact hfield reg (path ++ [nm]) k c e' hwf.1 hf
      | ok r =>
        obtain ⟨v, c1⟩ := r
        rw [hf] at h
        simp only at h
        cases hrest : decodeFields fuel reg path rest c1 with
        | error e' =>
          rw [hrest] at h
          simp at h
          rw [← h]
          exact ihr c1 e' hwf.2 hrest
        | ok r2 =>
          obtain ⟨vs, c2⟩ := r2
          rw [hrest] at h
          simp at h
  refine ⟨hfield, ?_, hfields⟩
  intro reg path ek n
  induction n with
  | zero =>
    intro c e _ h
    rw [decodeElems_zero] at h
    simp at h
  | succ n ihn =>
    intro c e hwf h
    rw [decodeElems_succ] at h
    cases hf : decodeField fuel reg path ek c with
    | error e' =>
      rw [hf] at h
      simp at h
      rw [← h]
      exact hfield reg path ek c e' hwf hf
    | ok r =>
      obtain ⟨v, c1⟩ := r
      rw [hf] at h
      simp only at h
      cases hrest : decodeElems fuel reg path ek n c1 with
      | error e' =>
        rw [hrest] at h
        simp at h
        rw [← h]
        exact ihn c1 e' hwf hrest
      | ok r2 =>
        obtain ⟨vs, c2⟩ := r2
        rw [hrest] at h
        simp at h

/-! ## Progress: successful decodes advance by at least the static minimum -/

/-- A successful field decode preserves buffer and end offset, keeps the
offset within bounds, and advances it by at least the field's minimum wire
length. -/
theorem decode_progress (fuel : Nat) :
    (∀ (reg : Registry) (path : List String) (k : FieldKind) (c : ByteCursor)
        (v : DecodedValue) (c' : ByteCursor), c.off ≤ c.stop →
        decodeField fuel reg path k c = .ok (v, c') →
        c'.buf = c.buf ∧ c'.stop = c.stop ∧
          c.off + minLenField fuel reg k ≤ c'.off ∧ c'.off ≤ c'.stop) ∧
    (∀ (reg : Registry) (path : List String) (ek : FieldKind) (n : Nat) (c : ByteCursor)
        (vs : List DecodedValue) (c' : ByteCursor), c.off ≤ c.stop →
        decodeElems fuel reg path ek n c = .ok (vs, c') →
        c'.buf = c.buf ∧ c'.stop = c.stop ∧ c.off ≤ c'.off ∧ c'.off ≤ c'.stop) ∧
    (∀ (reg : Registry) (path : List String) (flds : List FieldSpec) (c : ByteCursor)
        (vs : List (String × DecodedValue)) (c' : ByteCursor), c.off ≤ c.stop →
        decodeFields fuel reg path flds c = .ok (vs, c') →
        c'.buf = c.buf ∧ c'.stop = c.stop ∧
          c.off + minLenFields fuel reg flds ≤ c'.off ∧ c'.off ≤ c'.stop) := by
  induction fuel using Nat.strong_induction_on with
  | _ fuel IH =>
  have hread : ∀ (c : ByteCursor) (n : Nat) (bs : List Nat) (c' : ByteCursor),
      c.off ≤ c.stop → c.read n = .ok (bs, c') →
      c'.buf = c.buf ∧ c'.stop = c.stop ∧ c'.off = c.off + n ∧ c'.off ≤ c'.stop := by
    intro c n bs c' hle h
    obtain ⟨hn, _, hc'⟩ := ByteCursor.read_ok_inv h
    subst hc'
    have : c.remaining = c.stop - c.off := rfl
    exact ⟨rfl, rfl, rfl, by show c.off + n ≤ c.stop; omega⟩
  have hfield : ∀ (reg : Registry) (path : List String) (k : FieldKind) (c : ByteCursor)
      (v : DecodedValue) (c' : ByteCursor), c.off ≤ c.stop →
      decodeField fuel reg path k c = .ok (v, c') →
      c'.buf = c.buf ∧ c'.stop = c.stop ∧
        c.off + minLenField fuel reg k ≤ c'.off ∧ c'.off ≤ c'.stop := by
    intro reg path k
    induction k with
    | primitive p =>
      intro c v c' hle hdec
      cases p with
      | numeric w =>
        rw [decodeField_numeric] at hdec
        cases hr : c.read w with
        | error err => rw [hr] at hdec; simp at hdec
        | ok r =>
          obtain ⟨bs, c1⟩ := r
          rw [hr] at hdec
          simp at hdec
          obtain ⟨hb, hs, ho, hos⟩ := hread c w bs c1 hle hr
          rw [← hdec.2]
          rw [minLenField]
          exact ⟨hb, hs, by omega, hos⟩
      | str =>
        rw [decodeField_str] at hdec
        cases hr1 : c.read 1 with
        | error err => rw [hr1] at hdec; simp at hdec
        | ok r1 =>
          obtain ⟨bs1, c1⟩ := r1
          rw [hr1] at hdec
          simp only at hdec
          obtain ⟨hb1, hs1, ho1, hos1⟩ := hread c 1 bs1 c1 hle hr1
          cases hr4 : c1.read 4 with
          | error err => rw [hr4] at hdec; simp at hdec
          | ok r4 =>
            obtain ⟨pre, c2⟩ := r4
            rw [hr4] at hdec
            simp only at hdec
            obtain ⟨hb2, hs2, ho2, hos2⟩ := hread c1 4 pre c2 hos1 hr4
            cases hrn : c2.read (beNat pre) with
            | error err => rw [hrn] at hdec; simp at hdec
            | ok rn =>
              obtain ⟨bs, c3⟩ := rn
              rw [hrn] at hdec
              simp at hdec
              obtain ⟨hb3, hs3, ho3, hos3⟩ := hread c2 (beNat pre) bs c3 hos2 hrn
              rw [← hdec.2]
              rw [minLenField]
              refine ⟨by rw [hb3, hb2, hb1], by rw [hs3, hs2, hs1], by omega, hos3⟩
    | opaqueBlob =>
      intro c v c' hle hdec
      rw [decodeField_blob] at hdec
      cases hr4 : c.read 4 with
      | error err => rw [hr4] at hdec; simp at hdec
      | ok r4 =>
        obtain ⟨pre, c1⟩ := r4
        rw [hr4] at hdec
        simp only at hdec
        obtain ⟨hb1, hs1, ho1, hos1⟩ := hread c 4 pre c1 hle hr4
        cases hrn : c1.read (beNat pre) with
        | error err => rw [hrn] at hdec; simp at hdec
        | ok rn =>
          obtain ⟨bs, c2⟩ := rn
          rw [hrn] at hdec
          simp at hdec
          obtain ⟨hb2, hs2, ho2, hos2⟩ := hread c1 (beNat pre) bs c2 hos1 hrn
          rw [← hdec.2]
          rw [minLenField]
          refine ⟨by rw [hb2, hb1], by rw [hs2, hs1], by omega, hos2⟩
    | sequence ek ihek =>
      intro c v c' hle hdec
      have helems : ∀ (n : Nat) (c : ByteCursor) (vs : List DecodedValue) (c' : ByteCursor),
          c.off ≤ c.stop → decodeElems fuel reg path ek n c = .ok (vs, c') →
          c'.buf = c.buf ∧ c'.stop = c.stop ∧ c.off ≤ c'.off ∧ c'.off ≤ c'.stop := by
        intro n
        induction n with
        | zero =>
          intro c vs c' hle h
          rw [decodeElems_zero] at h
          simp at h
          rw [← h.2]
          exact ⟨rfl, rfl, Nat.le_refl _, hle⟩
        | succ n ihn =>
          intro c vs c' hle h
          rw [decodeElems_succ] at h
          cases hf : decodeField fuel reg path ek c with
          | error e' => rw [hf] at h; simp at h
          | ok r =>
            obtain ⟨v1, c1⟩ := r
            rw [hf] at h
            simp only at h
            obtain ⟨hb1, hs1, ho1, hos1⟩ := ihek c v1 c1 hle hf
            cases hrest : decodeElems fuel reg path ek n c1 with
            | error e' => rw [hrest] at h; simp at h
            | ok r2 =>
              obtain ⟨vs2, c2⟩ := r2
              rw [hrest] at h
              simp at h
              obtain ⟨hb2, hs2, ho2, hos2⟩ := ihn c1 vs2 c2 hos1 hrest
              rw [← h.2]
              exact ⟨by rw [hb2, hb1], by rw [hs2, hs1], by omega, hos2⟩
      rw [decodeField_seq] at hdec
      cases hr4 : c.read 4 with
      | error err => rw [hr4] at hdec; simp at hdec
      | ok r4 =>
        obtain ⟨pre, c1⟩ := r4
        rw [hr4] at hdec
        simp only at hdec
        obtain ⟨hb1, hs1, ho1, hos1⟩ := hread c 4 pre c1 hle hr4
        cases hel : decodeElems fuel reg path ek (beNat pre) c1 with
        | error e' => rw [hel] at hdec; simp at hdec
        | ok r2 =>
          obtain ⟨vs, c2⟩ := r2
          rw [hel] at hdec
          simp at hdec
          obtain ⟨hb2, hs2, ho2, hos2⟩ := helems (beNat pre) c1 vs c2 hos1 hel
          rw [← hdec.2]
          rw [minLenField]
          refine ⟨by rw [hb2, hb1], by rw [hs2, hs1], by omega, hos2⟩
    | composite d =>
      intro c v c' hle hdec
      cases fuel with
      | zero =>
        rw [decodeField_comp_zero] at hdec
        simp at hdec
      | succ fuel' =>
        rw [decodeField_comp_succ] at hdec
        cases hfind : reg.find d with
        | none => rw [hfind] at hdec; simp at hdec
        | some p =>
          rw [hfind] at hdec
          simp only at hdec
          cases hfs : decodeFields fuel' reg path p.fields c with
          | error e' => rw [hfs] at hdec; simp at hdec
          | ok r =>
            obtain ⟨vs, c1⟩ := r
            rw [hfs] at hdec
            simp at hdec
            obtain ⟨hb, hs, ho, hos⟩ :=
              (IH fuel' (Nat.lt_succ_self fuel')).2.2 reg path p.fields c vs c1 hle hfs
            rw [← hdec.2]
            rw [minLenField, hfind]
            exact ⟨hb, hs, ho, hos⟩
  have hfields : ∀ (reg : Registry) (path : List String) (flds : List FieldSpec)
      (c : ByteCursor) (vs : List (String × DecodedValue)) (c' : ByteCursor),
      c.off ≤ c.stop → decodeFields fuel reg path flds c = .ok (vs, c') →
      c'.buf = c.buf ∧ c'.stop = c.stop ∧
        c.off + minLenFields fuel reg flds ≤ c'.off ∧ c'.off ≤ c'.stop := by
    intro reg path flds
    induction flds with
    | nil =>
      intro c vs c' hle h
      rw [decodeFields_nil] at h
      simp at h
      rw [← h.2]
      rw [minLenFields]
      exact ⟨rfl, rfl, Nat.le_refl _, hle⟩
    | cons f rest ihr =>
      obtain ⟨nm, k⟩ := f
      intro c vs c' hle h
      rw [decodeFields_cons] at h
      cases hf : decodeField fuel reg (path ++ [nm]) k c with
      | error e' => rw [hf] at h; simp at h
      | ok r =>
        obtain ⟨v1, c1⟩ := r
        rw [hf] at h
        simp only at h
        obtain ⟨hb1, hs1, ho1, hos1⟩ := hfield reg (path ++ [nm]) k c v1 c1 hle hf
        cases hrest : decodeFields fuel reg path rest c1 with
        | error e' => rw [hrest] at h; simp at h
        | ok r2 =>
          obtain ⟨vs2, c2⟩ := r2
          rw [hrest] at h
          simp at h
          obtain ⟨hb2, hs2, ho2, hos2⟩ := ihr c1 vs2 c2 hos1 hrest
          rw [← h.2]
          rw [minLenFields]
          exact ⟨by rw [hb2, hb1], by rw [hs2, hs1], by omega, hos2⟩
  refine ⟨hfield, ?_, hfields⟩
  intro reg path ek n
  induction n with
  | zero =>
    intro c vs c' hle h
    rw [decodeElems_zero] at h
    simp at h
    rw [← h.2]
    exact ⟨rfl, rfl, Nat.le_refl _, hle⟩
  | succ n ihn =>
    intro c vs c' hle h
    rw [decodeElems_succ] at h
    cases hf : decodeField fuel reg path ek c with
    | error e' => rw [hf] at h; simp at h
    | ok r =>
      obtain ⟨v1, c1⟩ := r
      rw [hf] at h
      simp only at h
      obtain ⟨hb1, hs1, ho1, hos1⟩ := hfield reg path ek c v1 c1 hle hf
      cases hrest : decodeElems fuel reg path ek n c1 with
      | error e' => rw [hrest] at h; simp at h
      | ok r2 =>
        obtain ⟨vs2, c2⟩ := r2
        rw [hrest] at h
        simp at h
        obtain ⟨hb2, hs2, ho2, hos2⟩ := ihn c1 vs2 c2 hos1 hrest
        rw [← h.2]
        exact ⟨by rw [hb2, hb1], by rw [hs2, hs1], by omega, hos2⟩

/-- A buffer window too short for a well-formed field list makes the field
decoder fail with `TruncatedInput`. -/
theorem decodeFields_short (fuel : Nat) (reg : Registry) (path : List String)
    (flds : List FieldSpec) :
    ∀ (c : ByteCursor), fieldsWF fuel reg flds = true → c.off ≤ c.stop →
      c.remaining < minLenFields fuel reg flds →
      ∃ fp, decodeFields fuel reg path flds c = .error ⟨.truncatedInput, fp⟩ := by
  induction flds with
  | nil =>
    intro c _ _ hshort
    rw [minLenFields] at hshort
    exact absurd hshort (Nat.not_lt_zero _)
  | cons f rest ihr =>
    obtain ⟨nm, k⟩ := f
    intro c hwf hle hshort
    rw [fieldsWF] at hwf
    simp only [Bool.and_eq_true] at hwf
    rw [minLenFields] at hshort
    cases hf : decodeField fuel reg (path ++ [nm]) k c with
    | error e =>
      obtain ⟨ek, ep⟩ := e
      have hk : ek = .truncatedInput :=
        (decode_errKind fuel).1 reg (path ++ [nm]) k c ⟨ek, ep⟩ hwf.1 hf
      refine ⟨ep, ?_⟩
      rw [decodeFields_cons, hf, hk]
    | ok r =>
      obtain ⟨v, c1⟩ := r
      obtain ⟨hb, hs, ho, hos⟩ := (decode_progress fuel).1 reg (path ++ [nm]) k c v c1 hle hf
      have h1 : c.remaining = c.stop - c.off := rfl
      have h2 : c1.remaining = c1.stop - c1.off := rfl
      have hsh1 : c1.remaining < minLenFields fuel reg rest := by omega
      obtain ⟨fp, hfp⟩ := ihr c1 hwf.2 hos hsh1
      refine ⟨fp, ?_⟩
      rw [decodeFields_cons, hf]
      simp only
      rw [hfp]

/-! ## Claim C2: truncation failures -/

/-- C2: a byte buffer shorter than a (well-formed) schema's minimum required
length makes `decode` fail with `TruncatedInput` (and hence never return a
value); whenever a blob length prefix declares more bytes than remain in the
cursor, the field decoder fails with `TruncatedInput` rather than
under-reading; and in particular the blob-field buffer `[0x00,0x00,0x00,0x02]`
followed by a single byte fails with `TruncatedInput` at field path `[blob]`. -/
theorem decode_truncation :
    (∀ (fuel : Nat) (reg : Registry) (d : TypeDescriptor) (p : DecodingPlan)
        (bytes : List Nat), reg.find d = some p → fieldsWF fuel reg p.fields = true →
        bytes.length < minLenFields fuel reg p.fields →
        ∃ fp, decode fuel reg d bytes = .error ⟨.truncatedInput, fp⟩) ∧
    (∀ (fuel : Nat) (reg : Registry) (path : List String) (c : ByteCursor)
        (pre : List Nat) (c1 : ByteCursor), c.read 4 = .ok (pre, c1) →
        c1.remaining < beNat pre →
        decodeField fuel reg path .opaqueBlob c = .error ⟨.truncatedInput, path⟩) ∧
    (∀ (fuel : Nat) (reg : Registry) (d : TypeDescriptor) (ext : Bool) (b : Nat),
        reg.find d = some ⟨[⟨"blob", .opaqueBlob⟩], ext⟩ →
        decode fuel reg d [0x00, 0x00, 0x00, 0x02, b] =
          .error ⟨.truncatedInput, ["blob"]⟩) := by
  refine ⟨?_, ?_, ?_⟩
  · intro fuel reg d p bytes hfind hwf hshort
    have hle : (ByteCursor.mk0 bytes).off ≤ (ByteCursor.mk0 bytes).stop := Nat.zero_le _
    have hrem : (ByteCursor.mk0 bytes).remaining < minLenFields fuel reg p.fields := by
      show bytes.length - 0 < _
      omega
    obtain ⟨fp, hfp⟩ := decodeFields_short fuel reg [] p.fields (ByteCursor.mk0 bytes)
      hwf hle hrem
    refine ⟨fp, ?_⟩
    unfold decode decodeCursor
    rw [hfind]
    simp only
    rw [hfp]
  · intro fuel reg path c pre c1 hr4 hshort
    rw [decodeField_blob, hr4]
    simp only
    rw [ByteCursor.read_of_lt hshort]
  · intro fuel reg d ext b hfind
    simp [decode, decodeCursor, hfind, decodeFields_cons, decodeFields_nil,
      decodeField_blob, ByteCursor.mk0, ByteCursor.read, ByteCursor.remaining, beNat]

/-- Witness for C2: a concrete short buffer for a concrete schema, a concrete
over-declaring blob prefix, and the scenario instance. -/
theorem decode_truncation_witness :
    (∃ fp, decode 1 [("rec", ⟨[⟨"blob", .opaqueBlob⟩], false⟩)] "rec" [0, 0, 0] =
      .error ⟨.truncatedInput, fp⟩) ∧
    (decodeField 1 [] ["blob"] .opaqueBlob ⟨[0, 0, 0, 2, 9], 0, 5⟩ =
      .error ⟨.truncatedInput, ["blob"]⟩) ∧
    (decode 1 [("rec", ⟨[⟨"blob", .opaqueBlob⟩], false⟩)] "rec" [0, 0, 0, 2, 9] =
      .error ⟨.truncatedInput, ["blob"]⟩) :=
  ⟨decode_truncation.1 1 [("rec", ⟨[⟨"blob", .opaqueBlob⟩], false⟩)] "rec"
      ⟨[⟨"blob", .opaqueBlob⟩], false⟩ [0, 0, 0] (by decide)
      (by simp [fieldsWF, fieldWF]) (by simp [minLenFields, minLenField]),
   decode_truncation.2.1 1 [] ["blob"] ⟨[0, 0, 0, 2, 9], 0, 5⟩ [0, 0, 0, 2]
      ⟨[0, 0, 0, 2, 9], 4, 5⟩ (by simp [ByteCursor.read, ByteCursor.remaining])
      (by simp [ByteCursor.remaining, beNat]),
   decode_truncation.2.2 1 [("rec", ⟨[⟨"blob", .opaqueBlob⟩], false⟩)] "rec" false 9
      (by decide)⟩

/-- Decoding an appended field list decodes the two parts in sequence. -/
theorem decodeFields_append (fuel : Nat) (reg : Registry) (path : List String)
    (fs gs : List FieldSpec) (c : ByteCursor) :
    decodeFields fuel reg path (fs ++ gs) c =
      match decodeFields fuel reg path fs c with
      | .error e => .error e
      | .ok (vs, c1) =>
        match decodeFields fuel reg path gs c1 with
        | .error e => .error e
        | .ok (ws, c2) => .ok (vs ++ ws, c2) := by
  induction fs generalizing c with
  | nil =>
    rw [List.nil_append, decodeFields_nil]
    simp only
    cases h : decodeFields fuel reg path gs c with
    | error e => rfl
    | ok r => obtain ⟨ws, c2⟩ := r; rfl
  | cons f rest ih =>
    obtain ⟨nm, k⟩ := f
    rw [List.cons_append, decodeFields_cons, decodeFields_cons]
    cases hf : decodeField fuel reg (path ++ [nm]) k c with
    | error e => rfl
    | ok r =>
      obtain ⟨v, c1⟩ := r
      simp only
      rw [ih c1]
      cases h2 : decodeFields fuel reg path rest c1 with
      | error e => rfl
      | ok r2 =>
        obtain ⟨vs, c2⟩ := r2
        simp only
        cases h3 : decodeFields fuel reg path gs c2 with
        | error e => rfl
        | ok r3 => obtain ⟨ws, c3⟩ := r3; simp

/-! ## Claim C8: trailing zero-length containers decode to explicit empties -/

/-- C8: when the wire data ends with a zero-length trailing sequence or blob
field (four zero bytes of count/length prefix), decode succeeds and the
result carries an explicit empty container for that field — an empty
sequence or a zero-length OpaqueBlob — structurally distinct from the
value in which the field is absent. -/
theorem trailing_empty (fuel : Nat) (reg : Registry) (d : TypeDescriptor)
    (fs : List FieldSpec) (nm : String) (ek : FieldKind) (ext : Bool) (bytes : List Nat)
    (vs : List (String × DecodedValue)) (c1 : ByteCursor)
    (hfs : decodeFields fuel reg [] fs (ByteCursor.mk0 bytes) = .ok (vs, c1))
    (htail : c1.buf.drop c1.off = [0, 0, 0, 0])
    (hstop : c1.stop = c1.buf.length) :
    (reg.find d = some ⟨fs ++ [⟨nm, .sequence ek⟩], ext⟩ →
      decode fuel reg d bytes = .ok (.comp (vs ++ [(nm, .seq [])])) ∧
      DecodedValue.comp (vs ++ [(nm, .seq [])]) ≠ .comp vs) ∧
    (reg.find d = some ⟨fs ++ [⟨nm, .opaqueBlob⟩], ext⟩ →
      decode fuel reg d bytes =
        .ok (.comp (vs ++ [(nm, .blob ⟨c1.buf, c1.off + 4, 0⟩)])) ∧
      (OpaqueBlob.mk c1.buf (c1.off + 4) 0).len = 0 ∧
      DecodedValue.comp (vs ++ [(nm, .blob ⟨c1.buf, c1.off + 4, 0⟩)]) ≠ .comp vs) := by
  have hlen : c1.buf.length - c1.off = 4 := by
    have := congrArg List.length htail
    simpa using this
  have hrem4 : c1.remaining = 4 := by
    show c1.stop - c1.off = 4
    omega
  have hr4 : c1.read 4 = .ok ([0, 0, 0, 0], ⟨c1.buf, c1.off + 4, c1.stop⟩) := by
    rw [ByteCursor.read_of_le (by omega), htail]
    rfl
  have hrem0 : (⟨c1.buf, c1.off + 4, c1.stop⟩ : ByteCursor).remaining = 0 := by
    show c1.stop - (c1.off + 4) = 0
    omega
  constructor
  · intro hfind
    constructor
    · have hone : decodeFields fuel reg [] [⟨nm, .sequence ek⟩] c1 =
          .ok ([(nm, .seq [])], ⟨c1.buf, c1.off + 4, c1.stop⟩) := by
        rw [decodeFields_cons, decodeField_seq, hr4]
        simp only
        rw [show beNat [0, 0, 0, 0] = 0 from rfl, decodeElems_zero]
        simp only
        rw [decodeFields_nil]
      unfold decode decodeCursor
      rw [hfind]
      simp only
      rw [decodeFields_append, hfs]
      simp only
      rw [hone]
      simp only
      rw [hrem0]
      simp
    · simp
  · intro hfind
    refine ⟨?_, rfl, by simp⟩
    have hone : decodeFields fuel reg [] [⟨nm, .opaqueBlob⟩] c1 =
        .ok ([(nm, .blob ⟨c1.buf, c1.off + 4, 0⟩)], ⟨c1.buf, c1.off + 4, c1.stop⟩) := by
      rw [decodeFields_cons, decodeField_blob, hr4]
      simp only
      rw [show beNat [0, 0, 0, 0] = 0 from rfl]
      rw [ByteCursor.read_of_le (by rw [hrem0])]
      simp only
      rw [decodeFields_nil]
    unfold decode decodeCursor
    rw [hfind]
    simp only
    rw [decodeFields_append, hfs]
    simp only
    rw [hone]
    simp only
    rw [hrem0]
    simp

/-- Witness for C8 at concrete registries and the four-zero-byte buffer. -/
theorem trailing_empty_witness :
    decode 1 [("s", ⟨[⟨"xs", .sequence .opaqueBlob⟩], false⟩),
              ("b", ⟨[⟨"bb", .opaqueBlob⟩], false⟩)] "s" [0, 0, 0, 0] =
      .ok (.comp [("xs", .seq [])]) ∧
    decode 1 [("s", ⟨[⟨"xs", .sequence .opaqueBlob⟩], false⟩),
              ("b", ⟨[⟨"bb", .opaqueBlob⟩], false⟩)] "b" [0, 0, 0, 0] =
      .ok (.comp [("bb", .blob ⟨[0, 0, 0, 0], 4, 0⟩)]) :=
  ⟨((trailing_empty 1 [("s", ⟨[⟨"xs", .sequence .opaqueBlob⟩], false⟩),
        ("b", ⟨[⟨"bb", .opaqueBlob⟩], false⟩)] "s" [] "xs" .opaqueBlob false [0, 0, 0, 0]
        [] (ByteCursor.mk0 [0, 0, 0, 0]) (decodeFields_nil 1 _ [] _) rfl rfl).1
      (by decide)).1,
   ((trailing_empty 1 [("s", ⟨[⟨"xs", .sequence .opaqueBlob⟩], false⟩),
        ("b", ⟨[⟨"bb", .opaqueBlob⟩], false⟩)] "b" [] "bb" .opaqueBlob false [0, 0, 0, 0]
        [] (ByteCursor.mk0 [0, 0, 0, 0]) (decodeFields_nil 1 _ [] _) rfl rfl).2
      (by decide)).1⟩

/-! ## Unfolding lemmas for the encoder, validity and normal form -/

theorem encodeField_num (reg : Registry) (w n : Nat) :
    encodeField reg (.primitive (.numeric w)) (.num n) = beBytes w n := by
  rw [encodeField]

theorem encodeField_str (reg : Registry) (s : String) :
    encodeField reg (.primitive .str) (.str s) =
      1 :: beBytes 4 s.length ++ s.data.map Char.toNat := by
  rw [encodeField]

theorem encodeField_blob (reg : Registry) (b : OpaqueBlob) :
    encodeField reg .opaqueBlob (.blob b) = beBytes 4 b.len ++ b.bytes := by
  rw [encodeField]

theorem encodeField_seq (reg : Registry) (ek : FieldKind) (vs : List DecodedValue) :
    encodeField reg (.sequence ek) (.seq vs) =
      beBytes 4 vs.length ++ encodeElems reg ek vs := by
  rw [encodeField]

theorem encodeField_comp (reg : Registry) (d : TypeDescriptor)
    (fs : List (String × DecodedValue)) :
    encodeField reg (.composite d) (.comp fs) =
      match reg.find d with
      | some p => encodeFields reg p.fields fs
      | none => [] := by
  rw [encodeField]

theorem encodeElems_nil (reg : Registry) (ek : FieldKind) :
    encodeElems reg ek [] = [] := by
  rw [encodeElems]

theorem encodeElems_cons (reg : Registry) (ek : FieldKind) (v : DecodedValue)
    (vs : List DecodedValue) :
    encodeElems reg ek (v :: vs) = encodeField reg ek v ++ encodeElems reg ek vs := by
  rw [encodeElems]

theorem encodeFields_nil (reg : Registry) (fs : List (String × DecodedValue)) :
    encodeFields reg [] fs = [] := by
  rw [encodeFields]

theorem encodeFields_cons (reg : Registry) (spec : FieldSpec) (specs : List FieldSpec)
    (nm : String) (v : DecodedValue) (fs : List (String × DecodedValue)) :
    encodeFields reg (spec :: specs) ((nm, v) :: fs) =
      encodeField reg spec.kind v ++ encodeFields reg specs fs := by
  rw [encodeFields]

theorem absV_num (n : Nat) : absV (.num n) = .num n := by rw [absV]

theorem absV_str (s : String) : absV (.str s) = .str s := by rw [absV]

theorem absV_seq (vs : List DecodedValue) : absV (.seq vs) = .seq (absL vs) := by rw [absV]

theorem absV_comp (fs : List (String × DecodedValue)) :
    absV (.comp fs) = .comp (absF fs) := by rw [absV]

theorem absV_blob (b : OpaqueBlob) :
    absV (.blob b) = .blob ⟨b.bytes, 0, b.bytes.length⟩ := by rw [absV]

theorem absL_nil : absL [] = [] := by rw [absL]

theorem absL_cons (v : DecodedValue) (vs : List DecodedValue) :
    absL (v :: vs) = absV v :: absL vs := by rw [absL]

theorem absF_nil : absF [] = [] := by rw [absF]

theorem absF_cons (nm : String) (v : DecodedValue) (fs : List (String × DecodedValue)) :
    absF ((nm, v) :: fs) = (nm, absV v) :: absF fs := by rw [absF]

/-! ## Round trip: decoding an encoded valid value gives the value back -/

/-- The round-trip induction: decoding from any buffer position whose suffix
starts with the encoding of a valid value succeeds, consumes exactly the
encoding, and returns a value structurally equal to the original.  The bound
`m` on the value size drives the induction. -/
theorem decode_encode_aux (m : Nat) :
    (∀ (fuel : Nat) (reg : Registry) (path : List String) (k : FieldKind)
        (v : DecodedValue) (buf : List Nat) (i : Nat) (post : List Nat),
        sizeOf v ≤ m → validFor fuel reg k v = true →
        buf.drop i = encodeField reg k v ++ post →
        ∃ w, decodeField fuel reg path k ⟨buf, i, buf.length⟩
            = .ok (w, ⟨buf, i + (encodeField reg k v).length, buf.length⟩) ∧
          absV w = absV v) ∧
    (∀ (fuel : Nat) (reg : Registry) (path : List String) (ek : FieldKind)
        (vs : List DecodedValue) (buf : List Nat) (i : Nat) (post : List Nat),
        sizeOf vs ≤ m → validElems fuel reg ek vs = true →
        buf.drop i = encodeElems reg ek vs ++ post →
        ∃ ws, decodeElems fuel reg path ek vs.length ⟨buf, i, buf.length⟩
            = .ok (ws, ⟨buf, i + (encodeElems reg ek vs).length, buf.length⟩) ∧
          absL ws = absL vs) ∧
    (∀ (fuel : Nat) (reg : Registry) (path : List String) (specs : List FieldSpec)
        (fsv : List (String × DecodedValue)) (buf : List Nat) (i : Nat) (post : List Nat),
        sizeOf fsv ≤ m → validFields fuel reg specs fsv = true →
        buf.drop i = encodeFields reg specs fsv ++ post →
        ∃ ws, decodeFields fuel reg path specs ⟨buf, i, buf.length⟩
            = .ok (ws, ⟨buf, i + (encodeFields reg specs fsv).length, buf.length⟩) ∧
          absF ws = absF fsv) := by
  induction m using Nat.strong_induction_on with
  | _ m IH =>
  refine ⟨?_, ?_, ?_⟩
  · intro fuel reg path k v buf i post hsz hval hdrop
    cases k with
    | primitive p =>
      cases p with
      | numeric w =>
        cases v with
        | num n =>
          rw [encodeField_num] at hdrop ⊢
          have hval' : n < 256 ^ w := by
            rw [validFor] at hval
            simpa using hval
          obtain ⟨hr, hd2⟩ := read_drop hdrop (Nat.le_of_eq (beBytes_length w n).symm)
          refine ⟨.num (beNat ((beBytes w n).take w)), ?_, ?_⟩
          · rw [decodeField_numeric, hr]
            simp only
            rw [beBytes_length]
          · rw [List.take_of_length_le (Nat.le_of_eq (beBytes_length w n)),
              absV_num, absV_num, beNat_beBytes _ _ hval']
        | str s => simp [validFor] at hval
        | seq vs => simp [validFor] at hval
        | comp fs => simp [validFor] at hval
        | blob b => simp [validFor] at hval
      | str =>
        cases v with
        | num n => simp [validFor] at hval
        | seq vs => simp [validFor] at hval
        | comp fs => simp [validFor] at hval
        | blob b => simp [validFor] at hval
        | str s =>
          rw [encodeField_str] at hdrop ⊢
          rw [validFor] at hval
          simp only [Bool.and_eq_true, List.all_eq_true, decide_eq_true_eq] at hval
          have hsl : s.length = s.data.length := rfl
          have hd0 : buf.drop i =
              [1] ++ (beBytes 4 s.length ++ (s.data.map Char.toNat ++ post)) := by
            simpa using hdrop
          obtain ⟨hr1, hd1⟩ := read_drop (n := 1) hd0 (by simp)
          have hd1' : buf.drop (i + 1) =
              beBytes 4 s.length ++ (s.data.map Char.toNat ++ post) := by
            simpa using hd1
          obtain ⟨hr2, hd2⟩ := read_drop (n := 4) hd1'
            (Nat.le_of_eq (beBytes_length 4 s.length).symm)
          rw [List.take_of_length_le (Nat.le_of_eq (beBytes_length 4 s.length))] at hr2
          have hd2' : buf.drop (i + 1 + 4) = s.data.map Char.toNat ++ post := by
            rw [hd2, List.drop_eq_nil_of_le (Nat.le_of_eq (beBytes_length 4 s.length))]
            rfl
          have hbe : beNat (beBytes 4 s.length) = s.length := beNat_beBytes _ _ hval.2
          obtain ⟨hr3, hd3⟩ := read_drop (n := s.length) hd2'
            (by rw [List.length_map]; exact Nat.le_of_eq hsl)
          rw [List.take_of_length_le (by rw [List.length_map]; exact Nat.le_of_eq hsl)] at hr3
          have harith : i + (1 :: beBytes 4 s.length ++ s.data.map Char.toNat).length
              = i + 1 + 4 + s.length := by
            simp [beBytes_length, List.length_map]
            omega
          rw [harith]
          refine ⟨.str (String.mk ((s.data.map Char.toNat).map Char.ofNat)), ?_, ?_⟩
          · rw [decodeField_str, hr1]
            simp only
            rw [hr2]
            simp only
            rw [hbe, hr3]
          · have hmm : ∀ l : List Char, (l.map Char.toNat).map Char.ofNat = l := by
              intro l
              induction l with
              | nil => rfl
              | cons ch cs ih => simp [ih, Char.ofNat_toNat]
            rw [hmm]
    | opaqueBlob =>
      cases v with
      | num n => simp [validFor] at hval
      | str s => simp [validFor] at hval
      | seq vs => simp [validFor] at hval
      | comp fs => simp [validFor] at hval
      | blob b =>
        rw [encodeField_blob] at hdrop ⊢
        rw [validFor] at hval
        simp only [Bool.and_eq_true, decide_eq_true_eq] at hval
        have hblen : b.bytes.length = b.len := by
          unfold OpaqueBlob.bytes
          simp [List.length_take, List.length_drop]
          omega
        have hd0 : buf.drop i = beBytes 4 b.len ++ (b.bytes ++ post) := by
          simpa using hdrop
        obtain ⟨hr1, hd1⟩ := read_drop hd0 (Nat.le_of_eq (beBytes_length 4 b.len).symm)
        rw [List.take_of_length_le (Nat.le_of_eq (beBytes_length 4 b.len))] at hr1
        have hd1' : buf.drop (i + 4) = b.bytes ++ post := by
          rw [hd1, List.drop_eq_nil_of_le (Nat.le_of_eq (beBytes_length 4 b.len))]
          rfl
        have hbe : beNat (beBytes 4 b.len) = b.len := beNat_beBytes _ _ hval.2
        obtain ⟨hr2, hd2⟩ := read_drop hd1' (Nat.le_of_eq hblen.symm)
        have harith : i + (beBytes 4 b.len ++ b.bytes).length = i + 4 + b.len := by
          simp [beBytes_length, hblen]
          omega
        rw [harith]
        refine ⟨.blob ⟨buf, i + 4, beNat (beBytes 4 b.len)⟩, ?_, ?_⟩
        · rw [decodeField_blob, hr1]
          simp only
          rw [hbe, hr2]
        · rw [absV_blob, absV_blob, hbe]
          have hbytes : (OpaqueBlob.mk buf (i + 4) b.len).bytes = b.bytes := by
            unfold OpaqueBlob.bytes
            simp only
            rw [hd1', List.take_append_of_le_length (Nat.le_of_eq hblen.symm),
              List.take_of_length_le (Nat.le_of_eq hblen)]
            rfl
          rw [hbytes, hblen]
    | sequence ek =>
      cases v with
      | num n => simp [validFor] at hval
      | str s => simp [validFor] at hval
      | comp fs => simp [validFor] at hval
      | blob b => simp [validFor] at hval
      | seq vs =>
        rw [encodeField_seq] at hdrop ⊢
        rw [validFor] at hval
        simp only [Bool.and_eq_true, decide_eq_true_eq] at hval
        have hd0 : buf.drop i = beBytes 4 vs.length ++ (encodeElems reg ek vs ++ post) := by
          simpa using hdrop
        obtain ⟨hr1, hd1⟩ := read_drop hd0 (Nat.le_of_eq (beBytes_length 4 vs.length).symm)
        rw [List.take_of_length_le (Nat.le_of_eq (beBytes_length 4 vs.length))] at hr1
        have hd1' : buf.drop (i + 4) = encodeElems reg ek vs ++ post := by
          rw [hd1, List.drop_eq_nil_of_le (Nat.le_of_eq (beBytes_length 4 vs.length))]
          rfl
        have hbe : beNat (beBytes 4 vs.length) = vs.length := beNat_beBytes _ _ hval.1
        have hlt : sizeOf vs < m := by
          have hss : sizeOf vs < sizeOf (DecodedValue.seq vs) := by simp
          omega
        obtain ⟨ws, hdec2, habs⟩ := (IH (sizeOf vs) hlt).2.1 fuel reg path ek vs buf
          (i + 4) post (Nat.le_refl _) hval.2 hd1'
        have harith : i + (beBytes 4 vs.length ++ encodeElems reg ek vs).length
            = i + 4 + (encodeElems reg ek vs).length := by
          simp [beBytes_length]
          omega
        rw [harith]
        refine ⟨.seq ws, ?_, ?_⟩
        · rw [decodeField_seq, hr1]
          simp only
          rw [hbe, hdec2]
        · rw [absV_seq, absV_seq, habs]
    | composite d =>
      cases v with
      | num n => cases fuel <;> (simp [validFor] at hval)
      | str s => cases fuel <;> (simp [validFor] at hval)
      | seq vs => cases fuel <;> (simp [validFor] at hval)
      | blob b => cases fuel <;> (simp [validFor] at hval)
      | comp fs =>
        cases fuel with
        | zero => simp [validFor] at hval
        | succ fuel' =>
          rw [validFor] at hval
          cases hfind : reg.find d with
          | none => rw [hfind] at hval; simp at hval
          | some p =>
            rw [hfind] at hval
            simp only at hval
            rw [encodeField_comp, hfind] at hdrop ⊢
            simp only at hdrop ⊢
            have hlt : sizeOf fs < m := by
              have hss : sizeOf fs < sizeOf (DecodedValue.comp fs) := by simp
              omega
            obtain ⟨ws, hdec2, habs⟩ := (IH (sizeOf fs) hlt).2.2 fuel' reg path p.fields
              fs buf i post (Nat.le_refl _) hval hdrop
            refine ⟨.comp ws, ?_, ?_⟩
            · rw [decodeField_comp_succ, hfind]
              simp only
              rw [hdec2]
            · rw [absV_comp, absV_comp, habs]
  · intro fuel reg path ek vs buf i post hsz hval hdrop
    cases vs with
    | nil =>
      rw [encodeElems_nil] at hdrop ⊢
      refine ⟨[], ?_, rfl⟩
      simp [decodeElems_zero]
    | cons v rest =>
      rw [validElems] at hval
      simp only [Bool.and_eq_true] at hval
      rw [encodeElems_cons] at hdrop ⊢
      have hd0 : buf.drop i = encodeField reg ek v ++ (encodeElems reg ek rest ++ post) := by
        simpa using hdrop
      have hlt1 : sizeOf v < m := by
        have : sizeOf v < sizeOf (v :: rest) := by simp; omega
        omega
      obtain ⟨w, hdec1, habs1⟩ := (IH (sizeOf v) hlt1).1 fuel reg path ek v buf i
        (encodeElems reg ek rest ++ post) (Nat.le_refl _) hval.1 hd0
      have hd1 : buf.drop (i + (encodeField reg ek v).length)
          = encodeElems reg ek rest ++ post := by
        have h := congrArg (List.drop (encodeField reg ek v).length) hd0
        rwa [List.drop_drop, List.drop_left] at h
      have hlt2 : sizeOf rest < m := by
        have : sizeOf rest < sizeOf (v :: rest) := by simp
        omega
      obtain ⟨ws, hdec2, habs2⟩ := (IH (sizeOf rest) hlt2).2.1 fuel reg path ek rest buf
        (i + (encodeField reg ek v).length) post (Nat.le_refl _) hval.2 hd1
      have harith : i + (encodeField reg ek v ++ encodeElems reg ek rest).length
          = i + (encodeField reg ek v).length + (encodeElems reg ek rest).length := by
        simp [List.length_append]
        omega
      rw [harith]
      refine ⟨w :: ws, ?_, ?_⟩
      · rw [List.length_cons, decodeElems_succ, hdec1]
        simp only
        rw [hdec2]
      · rw [absL_cons, absL_cons, habs1, habs2]
  · intro fuel reg path specs fsv buf i post hsz hval hdrop
    cases specs with
    | nil =>
      cases fsv with
      | nil =>
        rw [encodeFields_nil] at hdrop ⊢
        refine ⟨[], ?_, rfl⟩
        simp [decodeFields_nil]
      | cons fv fs' => simp [validFields] at hval
    | cons spec specs' =>
      cases fsv with
      | nil => simp [validFields] at hval
      | cons fv fs' =>
        obtain ⟨nm, v⟩ := fv
        obtain ⟨snm, sk⟩ := spec
        rw [validFields] at hval
        simp only [Bool.and_eq_true, decide_eq_true_eq] at hval
        obtain ⟨⟨hnm, hv⟩, hrest⟩ := hval
        rw [encodeFields_cons] at hdrop ⊢
        have hd0 : buf.drop i = encodeField reg sk v ++ (encodeFields reg specs' fs' ++ post) := by
          simpa using hdrop
        have hlt1 : sizeOf v < m := by
          have : sizeOf v < sizeOf ((nm, v) :: fs') := by simp; omega
          omega
        obtain ⟨w, hdec1, habs1⟩ := (IH (sizeOf v) hlt1).1 fuel reg (path ++ [snm]) sk v buf i
          (encodeFields reg specs' fs' ++ post) (Nat.le_refl _) hv hd0
        have hd1 : buf.drop (i + (encodeField reg sk v).length)
            = encodeFields reg specs' fs' ++ post := by
          have h := congrArg (List.drop (encodeField reg sk v).length) hd0
          rwa [List.drop_drop, List.drop_left] at h
        have hlt2 : sizeOf fs' < m := by
          have : sizeOf fs' < sizeOf ((nm, v) :: fs') := by simp
          omega
        obtain ⟨ws, hdec2, habs2⟩ := (IH (sizeOf fs') hlt2).2.2 fuel reg path specs' fs' buf
          (i + (encodeField reg sk v).length) post (Nat.le_refl _) hrest hd1
        have harith : i + (encodeField reg sk v ++ encodeFields reg specs' fs').length
            = i + (encodeField reg sk v).length + (encodeFields reg specs' fs').length := by
          simp [List.length_append]
          omega
        rw [harith]
        refine ⟨(snm, w) :: ws, ?_, ?_⟩
        · rw [decodeFields_cons, hdec1]
          simp only
          rw [hdec2]
        · rw [absF_cons, absF_cons, habs1, habs2, hnm]

/-! ## Claim C1: decode is a left inverse of the encoder counterpart -/

/-- C1: for every schema (a descriptor with a registered plan) and every
value valid for it, decoding the bytes produced by the encoder counterpart
succeeds and yields a DecodedValue structurally equal to the original value
(`absV` canonicalises only the buffer representation inside blobs, so
`absV w = absV v` is structural equality). -/
theorem decode_encode_roundtrip (fuel : Nat) (reg : Registry) (d : TypeDescriptor)
    (p : DecodingPlan) (fs : List (String × DecodedValue))
    (hfind : reg.find d = some p)
    (hval : validFields fuel reg p.fields fs = true) :
    ∃ w, decode fuel reg d (encodeFields reg p.fields fs) = .ok w ∧
      absV w = absV (.comp fs) := by
  obtain ⟨ws, hdec, habs⟩ := (decode_encode_aux (sizeOf fs)).2.2 fuel reg [] p.fields fs
    (encodeFields reg p.fields fs) 0 [] (Nat.le_refl _) hval (by simp)
  refine ⟨.comp ws, ?_, ?_⟩
  · unfold decode decodeCursor ByteCursor.mk0
    rw [hfind]
    simp only
    rw [hdec]
    simp only
    have hz : (⟨encodeFields reg p.fields fs,
        0 + (encodeFields reg p.fields fs).length,
        (encodeFields reg p.fields fs).length⟩ : ByteCursor).remaining = 0 := by
      show (encodeFields reg p.fields fs).length
        - (0 + (encodeFields reg p.fields fs).length) = 0
      omega
    rw [hz]
    simp
  · rw [absV_comp, absV_comp, habs]

/-- Witness for C1: a concrete plan over all four field kinds and a concrete
valid value. -/
theorem decode_encode_roundtrip_witness :
    ∃ w, decode 1
        [("wire", ⟨[⟨"n", .primitive (.numeric 2)⟩, ⟨"s", .primitive .str⟩,
                    ⟨"xs", .sequence (.primitive (.numeric 1))⟩,
                    ⟨"payload", .opaqueBlob⟩], false⟩)]
        "wire"
        (encodeFields
          [("wire", ⟨[⟨"n", .primitive (.numeric 2)⟩, ⟨"s", .primitive .str⟩,
                      ⟨"xs", .sequence (.primitive (.numeric 1))⟩,
                      ⟨"payload", .opaqueBlob⟩], false⟩)]
          [⟨"n", .primitive (.numeric 2)⟩, ⟨"s", .primitive .str⟩,
           ⟨"xs", .sequence (.primitive (.numeric 1))⟩, ⟨"payload", .opaqueBlob⟩]
          [("n", .num 300), ("s", .str "ab"), ("xs", .seq [.num 7]),
           ("payload", .blob ⟨[9, 9, 9], 1, 2⟩)]) = .ok w ∧
      absV w = absV (.comp [("n", .num 300), ("s", .str "ab"), ("xs", .seq [.num 7]),
        ("payload", .blob ⟨[9, 9, 9], 1, 2⟩)]) :=
  decode_encode_roundtrip 1
    [("wire", ⟨[⟨"n", .primitive (.numeric 2)⟩, ⟨"s", .primitive .str⟩,
                ⟨"xs", .sequence (.primitive (.numeric 1))⟩,
                ⟨"payload", .opaqueBlob⟩], false⟩)]
    "wire"
    ⟨[⟨"n", .primitive (.numeric 2)⟩, ⟨"s", .primitive .str⟩,
      ⟨"xs", .sequence (.primitive (.numeric 1))⟩, ⟨"payload", .opaqueBlob⟩], false⟩
    [("n", .num 300), ("s", .str "ab"), ("xs", .seq [.num 7]),
     ("payload", .blob ⟨[9, 9, 9], 1, 2⟩)]
    (by decide)
    (by simp [validFields, validFor, validElems]; decide)

/-! ## Window equivalence: decoding depends only on the cursor's window -/

/-- Two cursors are window-equivalent when both are well formed and expose
the same byte window (same remaining length and same bytes). -/
def WinEq (c₁ c₂ : ByteCursor) : Prop :=
  c₁.off ≤ c₁.stop ∧ c₂.off ≤ c₂.stop ∧
  c₁.stop ≤ c₁.buf.length ∧ c₂.stop ≤ c₂.buf.length ∧
  c₁.remaining = c₂.remaining ∧
  (c₁.buf.drop c₁.off).take c₁.remaining = (c₂.buf.drop c₂.off).take c₂.remaining

/-- The bytes a blob-or-tail capture denotes inside a window are the window
bytes themselves. -/
theorem window_bytes_eq {c₁ c₂ : ByteCursor} (h : WinEq c₁ c₂) {n : Nat}
    (hn : n ≤ c₁.remaining) :
    (c₁.buf.drop c₁.off).take n = (c₂.buf.drop c₂.off).take n := by
  obtain ⟨_, _, _, _, hrem, hwin⟩ := h
  have h₁ : (c₁.buf.drop c₁.off).take n
      = ((c₁.buf.drop c₁.off).take c₁.remaining).take n := by
    rw [List.take_take, Nat.min_eq_left hn]
  have h₂ : (c₂.buf.drop c₂.off).take n
      = ((c₂.buf.drop c₂.off).take c₂.remaining).take n := by
    rw [List.take_take, Nat.min_eq_left (by omega)]
  rw [h₁, h₂, hwin]

/-- Reads transfer along window equivalence: both fail together, or both
return the same bytes and the advanced cursors are window-equivalent. -/
theorem read_winEq {c₁ c₂ : ByteCursor} (h : WinEq c₁ c₂) (n : Nat) :
    (c₁.read n = .error .truncatedInput ∧ c₂.read n = .error .truncatedInput) ∨
    (∃ bs, c₁.read n = .ok (bs, ⟨c₁.buf, c₁.off + n, c₁.stop⟩) ∧
      c₂.read n = .ok (bs, ⟨c₂.buf, c₂.off + n, c₂.stop⟩) ∧
      WinEq ⟨c₁.buf, c₁.off + n, c₁.stop⟩ ⟨c₂.buf, c₂.off + n, c₂.stop⟩) := by
  obtain ⟨ho₁, ho₂, hl₁, hl₂, hrem, hwin⟩ := h
  by_cases hn : c₁.remaining < n
  · left
    exact ⟨ByteCursor.read_of_lt hn, ByteCursor.read_of_lt (by omega)⟩
  · right
    push_neg at hn
    refine ⟨(c₁.buf.drop c₁.off).take n, ByteCursor.read_of_le hn, ?_, ?_⟩
    · rw [ByteCursor.read_of_le (by omega)]
      rw [window_bytes_eq ⟨ho₁, ho₂, hl₁, hl₂, hrem, hwin⟩ hn]
    · have hrm₁ : c₁.remaining = c₁.stop - c₁.off := rfl
      have hrm₂ : c₂.remaining = c₂.stop - c₂.off := rfl
      have hr₁' : (⟨c₁.buf, c₁.off + n, c₁.stop⟩ : ByteCursor).remaining
          = c₁.remaining - n := by
        show c₁.stop - (c₁.off + n) = c₁.remaining - n
        omega
      have hr₂' : (⟨c₂.buf, c₂.off + n, c₂.stop⟩ : ByteCursor).remaining
          = c₂.remaining - n := by
        show c₂.stop - (c₂.off + n) = c₂.remaining - n
        omega
      refine ⟨by show c₁.off + n ≤ c₁.stop; omega, by show c₂.off + n ≤ c₂.stop; omega,
        hl₁, hl₂, by rw [hr₁', hr₂', hrem], ?_⟩
      show (c₁.buf.drop (c₁.off + n)).take _ = (c₂.buf.drop (c₂.off + n)).take _
      rw [hr₁', hr₂']
      have hd₁ : c₁.buf.drop (c₁.off + n) = (c₁.buf.drop c₁.off).drop n := by
        rw [List.drop_drop]
      have hd₂ : c₂.buf.drop (c₂.off + n) = (c₂.buf.drop c₂.off).drop n := by
        rw [List.drop_drop]
      rw [hd₁, hd₂, ← List.drop_take, ← List.drop_take, hwin]

/-- Decoding transfers along window equivalence: the decoder fails
identically, or succeeds with structurally equal values and
window-equivalent cursors, on any two cursors exposing the same bytes. -/
theorem decode_winEq (fuel : Nat) :
    (∀ (reg : Registry) (path : List String) (k : FieldKind) (c₁ c₂ : ByteCursor),
      WinEq c₁ c₂ →
      (∃ e, decodeField fuel reg path k c₁ = .error e ∧
            decodeField fuel reg path k c₂ = .error e) ∨
      (∃ v₁ v₂ c₁' c₂', decodeField fuel reg path k c₁ = .ok (v₁, c₁') ∧
        decodeField fuel reg path k c₂ = .ok (v₂, c₂') ∧
        absV v₁ = absV v₂ ∧ WinEq c₁' c₂')) ∧
    (∀ (reg : Registry) (path : List String) (ek : FieldKind) (n : Nat) (c₁ c₂ : ByteCursor),
      WinEq c₁ c₂ →
      (∃ e, decodeElems fuel reg path ek n c₁ = .error e ∧
            decodeElems fuel reg path ek n c₂ = .error e) ∨
      (∃ vs₁ vs₂ c₁' c₂', decodeElems fuel reg path ek n c₁ = .ok (vs₁, c₁') ∧
        decodeElems fuel reg path ek n c₂ = .ok (vs₂, c₂') ∧
        absL vs₁ = absL vs₂ ∧ WinEq c₁' c₂')) ∧
    (∀ (reg : Registry) (path : List String) (flds : List FieldSpec) (c₁ c₂ : ByteCursor),
      WinEq c₁ c₂ →
      (∃ e, decodeFields fuel reg path flds c₁ = .error e ∧
            decodeFields fuel reg path flds c₂ = .error e) ∨
      (∃ ws₁ ws₂ c₁' c₂', decodeFields fuel reg path flds c₁ = .ok (ws₁, c₁') ∧
        decodeFields fuel reg path flds c₂ = .ok (ws₂, c₂') ∧
        absF ws₁ = absF ws₂ ∧ WinEq c₁' c₂')) := by
  induction fuel using Nat.strong_induction_on with
  | _ fuel IH =>
  have hfield : ∀ (reg : Registry) (path : List String) (k : FieldKind) (c₁ c₂ : ByteCursor),
      WinEq c₁ c₂ →
      (∃ e, decodeField fuel reg path k c₁ = .error e ∧
            decodeField fuel reg path k c₂ = .error e) ∨
      (∃ v₁ v₂ c₁' c₂', decodeField fuel reg path k c₁ = .ok (v₁, c₁') ∧
        decodeField fuel reg path k c₂ = .ok (v₂, c₂') ∧
        absV v₁ = absV v₂ ∧ WinEq c₁' c₂') := by
    intro reg path k
    induction k with
    | primitive p =>
      intro c₁ c₂ h
      cases p with
      | numeric w =>
        rcases read_winEq h w with ⟨he₁, he₂⟩ | ⟨bs, hk₁, hk₂, h'⟩
        · left
          exact ⟨⟨.truncatedInput, path⟩,
            by rw [decodeField_numeric, he₁],
            by rw [decodeField_numeric, he₂]⟩
        · right
          exact ⟨.num (beNat bs), .num (beNat bs), _, _,
            by rw [decodeField_numeric, hk₁],
            by rw [decodeField_numeric, hk₂], rfl, h'⟩
      | str =>
        rcases read_winEq h 1 with ⟨he₁, he₂⟩ | ⟨bs1, hk₁, hk₂, h1⟩
        · left
          exact ⟨⟨.truncatedInput, path⟩,
            by rw [decodeField_str, he₁],
            by rw [decodeField_str, he₂]⟩
        · rcases read_winEq h1 4 with ⟨he₁, he₂⟩ | ⟨pre, hp₁, hp₂, h2⟩
          · left
            refine ⟨⟨.truncatedInput, path⟩, ?_, ?_⟩
            · rw [decodeField_str, hk₁]
              simp only
              rw [he₁]
            · rw [decodeField_str, hk₂]
              simp only
              rw [he₂]
          · rcases read_winEq h2 (beNat pre) with ⟨he₁, he₂⟩ | ⟨bs, hb₁, hb₂, h3⟩
            · left
              refine ⟨⟨.truncatedInput, path⟩, ?_, ?_⟩
              · rw [decodeField_str, hk₁]
                simp only
                rw [hp₁]
                simp only
                rw [he₁]
              · rw [decodeField_str, hk₂]
                simp only
                rw [hp₂]
                simp only
                rw [he₂]
            · right
              refine ⟨.str (String.mk (bs.map Char.ofNat)),
                .str (String.mk (bs.map Char.ofNat)), _, _, ?_, ?_, rfl, h3⟩
              · rw [decodeField_str, hk₁]
                simp only
                rw [hp₁]
                simp only
                rw [hb₁]
              · rw [decodeField_str, hk₂]
                simp only
                rw [hp₂]
                simp only
                rw [hb₂]
    | opaqueBlob =>
      intro c₁ c₂ h
      rcases read_winEq h 4 with ⟨he₁, he₂⟩ | ⟨pre, hp₁, hp₂, h1⟩
      · left
        exact ⟨⟨.truncatedInput, path⟩,
          by rw [decodeField_blob, he₁],
          by rw [decodeField_blob, he₂]⟩
      · rcases read_winEq h1 (beNat pre) with ⟨he₁, he₂⟩ | ⟨bs, hb₁, hb₂, h2⟩
        · left
          refine ⟨⟨.truncatedInput, path⟩, ?_, ?_⟩
          · rw [decodeField_blob, hp₁]
            simp only
            rw [he₁]
          · rw [decodeField_blob, hp₂]
            simp only
            rw [he₂]
        · right
          refine ⟨.blob ⟨c₁.buf, c₁.off + 4, beNat pre⟩,
            .blob ⟨c₂.buf, c₂.off + 4, beNat pre⟩, _, _, ?_, ?_, ?_, h2⟩
          · rw [decodeField_blob, hp₁]
            simp only
            rw [hb₁]
          · rw [decodeField_blob, hp₂]
            simp only
            rw [hb₂]
          · rw [absV_blob, absV_blob]
            have hbyt₁ : (OpaqueBlob.mk c₁.buf (c₁.off + 4) (beNat pre)).bytes = bs :=
              ((ByteCursor.read_ok_inv hb₁).2.1).symm
            have hbyt₂ : (OpaqueBlob.mk c₂.buf (c₂.off + 4) (beNat pre)).bytes = bs :=
              ((ByteCursor.read_ok_inv hb₂).2.1).symm
            rw [hbyt₁, hbyt₂]
    | sequence ek ihek =>
      intro c₁ c₂ h
      have helems : ∀ (n : Nat) (c₁ c₂ : ByteCursor), WinEq c₁ c₂ →
          (∃ e, decodeElems fuel reg path ek n c₁ = .error e ∧
                decodeElems fuel reg path ek n c₂ = .error e) ∨
          (∃ vs₁ vs₂ c₁' c₂', decodeElems fuel reg path ek n c₁ = .ok (vs₁, c₁') ∧
            decodeElems fuel reg path ek n c₂ = .ok (vs₂, c₂') ∧
            absL vs₁ = absL vs₂ ∧ WinEq c₁' c₂') := by
        intro n
        induction n with
        | zero =>
          intro c₁ c₂ h
          right
          exact ⟨[], [], c₁, c₂, decodeElems_zero fuel reg path ek c₁,
            decodeElems_zero fuel reg path ek c₂, rfl, h⟩
        | succ n ihn =>
          intro c₁ c₂ h
          rcases ihek c₁ c₂ h with ⟨e, he₁, he₂⟩ | ⟨v₁, v₂, c₁', c₂', hv₁, hv₂, hab, h'⟩
          · left
            refine ⟨e, ?_, ?_⟩
            · rw [decodeElems_succ, he₁]
            · rw [decodeElems_succ, he₂]
          · rcases ihn c₁' c₂' h' with ⟨e, he₁, he₂⟩ |
              ⟨vs₁, vs₂, c₁'', c₂'', hw₁, hw₂, habs, h''⟩
            · left
              refine ⟨e, ?_, ?_⟩
              · rw [decodeElems_succ, hv₁]
                simp only
                rw [he₁]
              · rw [decodeElems_succ, hv₂]
                simp only
                rw [he₂]
            · right
              refine ⟨v₁ :: vs₁, v₂ :: vs₂, c₁'', c₂'', ?_, ?_, ?_, h''⟩
              · rw [decodeElems_succ, hv₁]
                simp only
                rw [hw₁]
              · rw [decodeElems_succ, hv₂]
                simp only
                rw [hw₂]
              · rw [absL_cons, absL_cons, hab, habs]
      rcases read_winEq h 4 with ⟨he₁, he₂⟩ | ⟨pre, hp₁, hp₂, h1⟩
      · left
        exact ⟨⟨.truncatedInput, path⟩,
          by rw [decodeField_seq, he₁],
          by rw [decodeField_seq, he₂]⟩
      · rcases helems (beNat pre) _ _ h1 with ⟨e, he₁, he₂⟩ |
          ⟨vs₁, vs₂, c₁', c₂', hv₁, hv₂, hab, h'⟩
        · left
          refine ⟨e, ?_, ?_⟩
          · rw [decodeField_seq, hp₁]
            simp only
            rw [he₁]
          · rw [decodeField_seq, hp₂]
            simp only
            rw [he₂]
        · right
          refine ⟨.seq vs₁, .seq vs₂, c₁', c₂', ?_, ?_, ?_, h'⟩
          · rw [decodeField_seq, hp₁]
            simp only
            rw [hv₁]
          · rw [decodeField_seq, hp₂]
            simp only
            rw [hv₂]
          · rw [absV_seq, absV_seq, hab]
    | composite d =>
      intro c₁ c₂ h
      cases fuel with
      | zero =>
        left
        exact ⟨⟨.depthExceeded, path⟩, decodeField_comp_zero reg path d c₁,
          decodeField_comp_zero reg path d c₂⟩
      | succ fuel' =>
        cases hfind : reg.find d with
        | none =>
          left
          refine ⟨⟨.unknownSchema, path⟩, ?_, ?_⟩
          · rw [decodeField_comp_succ, hfind]
          · rw [decodeField_comp_succ, hfind]
        | some p =>
          rcases (IH fuel' (Nat.lt_succ_self fuel')).2.2 reg path p.fields c₁ c₂ h with
            ⟨e, he₁, he₂⟩ | ⟨ws₁, ws₂, c₁', c₂', hw₁, hw₂, hab, h'⟩
          · left
            refine ⟨e, ?_, ?_⟩
            · rw [decodeField_comp_succ, hfind]
              simp only
              rw [he₁]
            · rw [decodeField_comp_succ, hfind]
              simp only
              rw [he₂]
          · right
            refine ⟨.comp ws₁, .comp ws₂, c₁', c₂', ?_, ?_, ?_, h'⟩
            · rw [decodeField_comp_succ, hfind]
              simp only
              rw [hw₁]
            · rw [decodeField_comp_succ, hfind]
              simp only
              rw [hw₂]
            · rw [absV_comp, absV_comp, hab]
  have hfields : ∀ (reg : Registry) (path : List String) (flds : List FieldSpec)
      (c₁ c₂ : ByteCursor), WinEq c₁ c₂ →
      (∃ e, decodeFields fuel reg path flds c₁ = .error e ∧
            decodeFields fuel reg path flds c₂ = .error e) ∨
      (∃ ws₁ ws₂ c₁' c₂', decodeFields fuel reg path flds c₁ = .ok (ws₁, c₁') ∧
        decodeFields fuel reg path flds c₂ = .ok (ws₂, c₂') ∧
        absF ws₁ = absF ws₂ ∧ WinEq c₁' c₂') := by
    intro reg path flds
    induction flds with
    | nil =>
      intro c₁ c₂ h
      right
      exact ⟨[], [], c₁, c₂, decodeFields_nil fuel reg path c₁,
        decodeFields_nil fuel reg path c₂, rfl, h⟩
    | cons f rest ihr =>
      obtain ⟨nm, k⟩ := f
      intro c₁ c₂ h
      rcases hfield reg (path ++ [nm]) k c₁ c₂ h with ⟨e, he₁, he₂⟩ |
        ⟨v₁, v₂, c₁', c₂', hv₁, hv₂, hab, h'⟩
      · left
        refine ⟨e, ?_, ?_⟩
        · rw [decodeFields_cons, he₁]
        · rw [decodeFields_cons, he₂]
      · rcases ihr c₁' c₂' h' with ⟨e, he₁, he₂⟩ |
          ⟨ws₁, ws₂, c₁'', c₂'', hw₁, hw₂, habs, h''⟩
        · left
          refine ⟨e, ?_, ?_⟩
          · rw [decodeFields_cons, hv₁]
            simp only
            rw [he₁]
          · rw [decodeFields_cons, hv₂]
            simp only
            rw [he₂]
        · right
          refine ⟨(nm, v₁) :: ws₁, (nm, v₂) :: ws₂, c₁'', c₂'', ?_, ?_, ?_, h''⟩
          · rw [decodeFields_cons, hv₁]
            simp only
            rw [hw₁]
          · rw [decodeFields_cons, hv₂]
            simp only
            rw [hw₂]
          · rw [absF_cons, absF_cons, hab, habs]
  refine ⟨hfield, ?_, hfields⟩
  intro reg path ek n
  induction n with
  | zero =>
    intro c₁ c₂ h
    right
    exact ⟨[], [], c₁, c₂, decodeElems_zero fuel reg path ek c₁,
      decodeElems_zero fuel reg path ek c₂, rfl, h⟩
  | succ n ihn =>
    intro c₁ c₂ h
    rcases hfield reg path ek c₁ c₂ h with ⟨e, he₁, he₂⟩ |
      ⟨v₁, v₂, c₁', c₂', hv₁, hv₂, hab, h'⟩
    · left
      refine ⟨e, ?_, ?_⟩
      · rw [decodeElems_succ, he₁]
      · rw [decodeElems_succ, he₂]
    · rcases ihn c₁' c₂' h' with ⟨e, he₁, he₂⟩ |
        ⟨vs₁, vs₂, c₁'', c₂'', hw₁, hw₂, habs, h''⟩
      · left
        refine ⟨e, ?_, ?_⟩
        · rw [decodeElems_succ, hv₁]
          simp only
          rw [he₁]
        · rw [decodeElems_succ, hv₂]
          simp only
          rw [he₂]
      · right
        refine ⟨v₁ :: vs₁, v₂ :: vs₂, c₁'', c₂'', ?_, ?_, ?_, h''⟩
        · rw [decodeElems_succ, hv₁]
          simp only
          rw [hw₁]
        · rw [decodeElems_succ, hv₂]
          simp only
          rw [hw₂]
        · rw [absL_cons, absL_cons, hab, habs]

/-! ## Blob well-formedness invariant -/

/-- A blob's captured range lies inside the buffer it borrows from. -/
def BlobWF (b : OpaqueBlob) : Prop := b.start + b.len ≤ b.data.length

/-- Every blob inside a value produced by a successful decode from a
well-formed cursor has a well-formed captured range. -/
theorem decode_blobWF (fuel : Nat) :
    (∀ (reg : Registry) (path : List String) (k : FieldKind) (c : ByteCursor)
        (v : DecodedValue) (c' : ByteCursor), c.off ≤ c.stop → c.stop ≤ c.buf.length →
        decodeField fuel reg path k c = .ok (v, c') →
        ∀ b, BlobIn b v → BlobWF b) ∧
    (∀ (reg : Registry) (path : List String) (ek : FieldKind) (n : Nat) (c : ByteCursor)
        (vs : List DecodedValue) (c' : ByteCursor), c.off ≤ c.stop → c.stop ≤ c.buf.length →
        decodeElems fuel reg path ek n c = .ok (vs, c') →
        ∀ b, BlobIn b (.seq vs) → BlobWF b) ∧
    (∀ (reg : Registry) (path : List String) (flds : List FieldSpec) (c : ByteCursor)
        (ws : List (String × DecodedValue)) (c' : ByteCursor),
        c.off ≤ c.stop → c.stop ≤ c.buf.length →
        decodeFields fuel reg path flds c = .ok (ws, c') →
        ∀ b, BlobIn b (.comp ws) → BlobWF b) := by
  induction fuel using Nat.strong_induction_on with
  | _ fuel IH =>
  have hread : ∀ (c : ByteCursor) (n : Nat) (bs : List Nat) (c' : ByteCursor),
      c.off ≤ c.stop → c.stop ≤ c.buf.length → c.read n = .ok (bs, c') →
      c'.off ≤ c'.stop ∧ c'.stop ≤ c'.buf.length ∧
        c' = ⟨c.buf, c.off + n, c.stop⟩ := by
    intro c n bs c' h1 h2 h
    obtain ⟨hn, _, hc'⟩ := ByteCursor.read_ok_inv h
    subst hc'
    have : c.remaining = c.stop - c.off := rfl
    exact ⟨by show c.off + n ≤ c.stop; omega, h2, rfl⟩
  have hfield : ∀ (reg : Registry) (path : List String) (k : FieldKind) (c : ByteCursor)
      (v : DecodedValue) (c' : ByteCursor), c.off ≤ c.stop → c.stop ≤ c.buf.length →
      decodeField fuel reg path k c = .ok (v, c') →
      ∀ b, BlobIn b v → BlobWF b := by
    intro reg path k
    induction k with
    | primitive p =>
      intro c v c' h1 h2 hdec b hb
      cases p with
      | numeric w =>
        rw [decodeField_numeric] at hdec
        cases hr : c.read w with
        | error err => rw [hr] at hdec; simp at hdec
        | ok r =>
          obtain ⟨bs, c1⟩ := r
          rw [hr] at hdec
          simp at hdec
          rw [← hdec.1] at hb
          cases hb
      | str =>
        rw [decodeField_str] at hdec
        cases hr1 : c.read 1 with
        | error err => rw [hr1] at hdec; simp at hdec
        | ok r1 =>
          obtain ⟨bs1, c1⟩ := r1
          rw [hr1] at hdec
          simp only at hdec
          cases hr4 : c1.read 4 with
          | error err => rw [hr4] at hdec; simp at hdec
          | ok r4 =>
            obtain ⟨pre, c2⟩ := r4
            rw [hr4] at hdec
            simp only at hdec
            cases hrn : c2.read (beNat pre) with
            | error err => rw [hrn] at hdec; simp at hdec
            | ok rn =>
              obtain ⟨bs, c3⟩ := rn
              rw [hrn] at hdec
              simp at hdec
              rw [← hdec.1] at hb
              cases hb
    | opaqueBlob =>
      intro c v c' h1 h2 hdec b hb
      rw [decodeField_blob] at hdec
      cases hr4 : c.read 4 with
      | error err => rw [hr4] at hdec; simp at hdec
      | ok r4 =>
        obtain ⟨pre, c1⟩ := r4
        rw [hr4] at hdec
        simp only at hdec
        obtain ⟨ho1, hl1, hc1⟩ := hread c 4 pre c1 h1 h2 hr4
        cases hrn : c1.read (beNat pre) with
        | error err => rw [hrn] at hdec; simp at hdec
        | ok rn =>
          obtain ⟨bs, c2⟩ := rn
          rw [hrn] at hdec
          simp at hdec
          obtain ⟨hn2, _, _⟩ := ByteCursor.read_ok_inv hrn
          rw [← hdec.1] at hb
          cases hb
          show c1.off + beNat pre ≤ c1.buf.length
          have : c1.remaining = c1.stop - c1.off := rfl
          omega
    | sequence ek ihek =>
      intro c v c' h1 h2 hdec b hb
      have helems : ∀ (n : Nat) (c : ByteCursor) (vs : List DecodedValue) (c' : ByteCursor),
          c.off ≤ c.stop → c.stop ≤ c.buf.length →
          decodeElems fuel reg path ek n c = .ok (vs, c') →
          ∀ b, BlobIn b (.seq vs) → BlobWF b := by
        intro n
        induction n with
        | zero =>
          intro c vs c' h1 h2 h b hb
          rw [decodeElems_zero] at h
          simp at h
          obtain ⟨hv', hc'⟩ := h
          subst hv'
          cases hb with
          | inSeq hm hbv => cases hm
        | succ n ihn =>
          intro c vs c' h1 h2 h b hb
          rw [decodeElems_succ] at h
          cases hf : decodeField fuel reg path ek c with
          | error e => rw [hf] at h; simp at h
          | ok r =>
            obtain ⟨v1, c1⟩ := r
            rw [hf] at h
            simp only at h
            obtain ⟨hb1, hs1, ho1, hos1⟩ := (decode_progress fuel).1 reg path ek c v1 c1 h1 hf
            cases hrest : decodeElems fuel reg path ek n c1 with
            | error e => rw [hrest] at h; simp at h
            | ok r2 =>
              obtain ⟨vs2, c2⟩ := r2
              rw [hrest] at h
              simp at h
              rw [← h.1] at hb
              cases hb with
              | inSeq hm hbv =>
                cases hm with
                | head =>
                  exact ihek c v1 c1 h1 h2 hf b hbv
                | tail _ hm' =>
                  exact ihn c1 vs2 c2 hos1 (by rw [hs1, hb1]; exact h2) hrest b
                    (BlobIn.inSeq hm' hbv)
      rw [decodeField_seq] at hdec
      cases hr4 : c.read 4 with
      | error err => rw [hr4] at hdec; simp at hdec
      | ok r4 =>
        obtain ⟨pre, c1⟩ := r4
        rw [hr4] at hdec
        simp only at hdec
        obtain ⟨ho1, hl1, hc1⟩ := hread c 4 pre c1 h1 h2 hr4
        cases hel : decodeElems fuel reg path ek (beNat pre) c1 with
        | error e => rw [hel] at hdec; simp at hdec
        | ok r2 =>
          obtain ⟨vs, c2⟩ := r2
          rw [hel] at hdec
          simp at hdec
          rw [← hdec.1] at hb
          have hl1' : c1.stop ≤ c1.buf.length := by rw [hc1]; exact h2
          exact helems (beNat pre) c1 vs c2 ho1 hl1' hel b hb
    | composite d =>
      intro c v c' h1 h2 hdec b hb
      cases fuel with
      | zero => rw [decodeField_comp_zero] at hdec; simp at hdec
      | succ fuel' =>
        rw [decodeField_comp_succ] at hdec
        cases hfind : reg.find d with
        | none => rw [hfind] at hdec; simp at hdec
        | some p =>
          rw [hfind] at hdec
          simp only at hdec
          cases hfs : decodeFields fuel' reg path p.fields c with
          | error e => rw [hfs] at hdec; simp at hdec
          | ok r =>
            obtain ⟨ws, c1⟩ := r
            rw [hfs] at hdec
            simp at hdec
            rw [← hdec.1] at hb
            exact (IH fuel' (Nat.lt_succ_self fuel')).2.2 reg path p.fields c ws c1
              h1 h2 hfs b hb
  have hfields : ∀ (reg : Registry) (path : List String) (flds : List FieldSpec)
      (c : ByteCursor) (ws : List (String × DecodedValue)) (c' : ByteCursor),
      c.off ≤ c.stop → c.stop ≤ c.buf.length →
      decodeFields fuel reg path flds c = .ok (ws, c') →
      ∀ b, BlobIn b (.comp ws) → BlobWF b := by
    intro reg path flds
    induction flds with
    | nil =>
      intro c ws c' h1 h2 h b hb
      rw [decodeFields_nil] at h
      simp at h
      obtain ⟨hv', hc'⟩ := h
      subst hv'
      cases hb with
      | inComp hm hbv => cases hm
    | cons f rest ihr =>
      obtain ⟨nm, k⟩ := f
      intro c ws c' h1 h2 h b hb
      rw [decodeFields_cons] at h
      cases hf : decodeField fuel reg (path ++ [nm]) k c with
      | error e => rw [hf] at h; simp at h
      | ok r =>
        obtain ⟨v1, c1⟩ := r
        rw [hf] at h
        simp only at h
        obtain ⟨hb1, hs1, ho1, hos1⟩ :=
          (decode_progress fuel).1 reg (path ++ [nm]) k c v1 c1 h1 hf
        cases hrest : decodeFields fuel reg path rest c1 with
        | error e => rw [hrest] at h; simp at h
        | ok r2 =>
          obtain ⟨ws2, c2⟩ := r2
          rw [hrest] at h
          simp at h
          rw [← h.1] at hb
          cases hb with
          | inComp hm hbv =>
            cases hm with
            | head =>
              exact hfield reg (path ++ [nm]) k c v1 c1 h1 h2 hf b hbv
            | tail _ hm' =>
              exact ihr c1 ws2 c2 hos1 (by rw [hs1, hb1]; exact h2) hrest b
                (BlobIn.inComp hm' hbv)
  refine ⟨hfield, ?_, hfields⟩
  intro reg path ek n
  induction n with
  | zero =>
    intro c vs c' h1 h2 h b hb
    rw [decodeElems_zero] at h
    simp at h
    obtain ⟨hv', hc'⟩ := h
    subst hv'
    cases hb with
    | inSeq hm hbv => cases hm
  | succ n ihn =>
    intro c vs c' h1 h2 h b hb
    rw [decodeElems_succ] at h
    cases hf : decodeField fuel reg path ek c with
    | error e => rw [hf] at h; simp at h
    | ok r =>
      obtain ⟨v1, c1⟩ := r
      rw [hf] at h
      simp only at h
      obtain ⟨hb1, hs1, ho1, hos1⟩ := (decode_progress fuel).1 reg path ek c v1 c1 h1 hf
      cases hrest : decodeElems fuel reg path ek n c1 with
      | error e => rw [hrest] at h; simp at h
      | ok r2 =>
        obtain ⟨vs2, c2⟩ := r2
        rw [hrest] at h
        simp at h
        rw [← h.1] at hb
        cases hb with
        | inSeq hm hbv =>
          cases hm with
          | head => exact hfield reg path ek c v1 c1 h1 h2 hf b hbv
          | tail _ hm' =>
            exact ihn c1 vs2 c2 hos1 (by rw [hs1, hb1]; exact h2) hrest b
              (BlobIn.inSeq hm' hbv)

/-- Structural normal form on decode results: errors unchanged, values
normalised by `absV`. -/
def absRes : Except DecodeError DecodedValue → Except DecodeError DecodedValue
  | .error e => .error e
  | .ok v => .ok (absV v)

theorem absF_append (xs ys : List (String × DecodedValue)) :
    absF (xs ++ ys) = absF xs ++ absF ys := by
  induction xs with
  | nil => simp [absF_nil]
  | cons p rest ih =>
    obtain ⟨n, v⟩ := p
    simp [absF_cons, ih]

/-- The Decoder Engine entry point transfers along window equivalence: it
returns structurally equal results on any two cursors exposing the same
bytes. -/
theorem decodeCursor_winEq (fuel : Nat) (reg : Registry) (d : TypeDescriptor)
    {c₁ c₂ : ByteCursor} (h : WinEq c₁ c₂) :
    absRes (decodeCursor fuel reg d c₁) = absRes (decodeCursor fuel reg d c₂) := by
  unfold decodeCursor
  cases hfind : reg.find d with
  | none => rfl
  | some p =>
    rcases (decode_winEq fuel).2.2 reg [] p.fields c₁ c₂ h with ⟨e, he₁, he₂⟩ |
      ⟨ws₁, ws₂, c₁', c₂', hw₁, hw₂, hab, h'⟩
    · simp only
      rw [he₁, he₂]
    · simp only
      rw [hw₁, hw₂]
      simp only
      obtain ⟨ho₁, ho₂, hl₁, hl₂, hrem, hwin⟩ := h'
      by_cases hz : c₂'.remaining = 0
      · have hz₁ : c₁'.remaining = 0 := by rw [hrem]; exact hz
        rw [if_pos hz₁, if_pos hz]
        simp only [absRes]
        rw [absV_comp, absV_comp, hab]
      · have hz₁ : ¬c₁'.remaining = 0 := by rw [hrem]; exact hz
        rw [if_neg hz₁, if_neg hz]
        by_cases hx : p.extensible = true
        · rw [if_pos hx, if_pos hx]
          simp only [absRes]
          rw [absV_comp, absV_comp, absF_append, absF_append, hab,
            absF_cons, absF_cons, absF_nil]
          have htail : absV (.blob ⟨c₁'.buf, c₁'.off, c₁'.remaining⟩)
              = absV (.blob ⟨c₂'.buf, c₂'.off, c₂'.remaining⟩) := by
            rw [absV_blob, absV_blob]
            have hby : (OpaqueBlob.mk c₁'.buf c₁'.off c₁'.remaining).bytes
                = (OpaqueBlob.mk c₂'.buf c₂'.off c₂'.remaining).bytes := by
              show (c₁'.buf.drop c₁'.off).take c₁'.remaining
                = (c₂'.buf.drop c₂'.off).take c₂'.remaining
              exact hwin
            rw [hby]
          rw [htail]
        · rw [if_neg hx, if_neg hx]

/-- Blob well-formedness at the engine entry point. -/
theorem decodeCursor_blobWF (fuel : Nat) (reg : Registry) (d : TypeDescriptor)
    {c : ByteCursor} {v : DecodedValue} (h1 : c.off ≤ c.stop) (h2 : c.stop ≤ c.buf.length)
    (h : decodeCursor fuel reg d c = .ok v) :
    ∀ b, BlobIn b v → BlobWF b := by
  unfold decodeCursor at h
  cases hfind : reg.find d with
  | none => rw [hfind] at h; simp at h
  | some p =>
    rw [hfind] at h
    simp only at h
    cases hfs : decodeFields fuel reg [] p.fields c with
    | error e => rw [hfs] at h; simp at h
    | ok r =>
      obtain ⟨ws, c1⟩ := r
      rw [hfs] at h
      simp only at h
      have hflds := (decode_blobWF fuel).2.2 reg [] p.fields c ws c1 h1 h2 hfs
      obtain ⟨hb1, hs1, ho1, hos1⟩ := (decode_progress fuel).2.2 reg [] p.fields c ws c1 h1 hfs
      by_cases hz : c1.remaining = 0
      · rw [if_pos hz] at h
        simp at h
        rw [← h]
        exact hflds
      · rw [if_neg hz] at h
        by_cases hx : p.extensible = true
        · rw [if_pos hx] at h
          simp at h
          rw [← h]
          intro b hb
          cases hb with
          | inComp hm hbv =>
            rw [List.mem_append] at hm
            cases hm with
            | inl hm' => exact hflds b (BlobIn.inComp hm' hbv)
            | inr hm' =>
              simp at hm'
              rw [hm'.2] at hbv
              cases hbv
              show c1.off + c1.remaining ≤ c1.buf.length
              have : c1.remaining = c1.stop - c1.off := rfl
              have : c1.stop ≤ c1.buf.length := by rw [hs1, hb1]; exact h2
              omega
        · rw [if_neg hx] at h
          simp at h

/-! ## Claim C6: blob.as decodes the blob's bytes standalone -/

/-- C6: every OpaqueBlob obtained from a successful decode has a well-formed
borrowed range, and `blob.as(descriptor)` — a fresh ByteCursor over exactly
the blob's byte range handed to the Decoder Engine — produces the same
DecodedValue (structurally) as decoding the blob's bytes standalone, for any
descriptor and registry; in particular the inner decode reads only the
blob's bytes. -/
theorem blob_as_standalone (fuel fuel' : Nat) (reg reg' : Registry)
    (d d' : TypeDescriptor) (bytes : List Nat) (v : DecodedValue) (b : OpaqueBlob)
    (hdec : decode fuel reg d bytes = .ok v) (hin : BlobIn b v) :
    absRes (OpaqueBlob.as b fuel' reg' d') = absRes (decode fuel' reg' d' b.bytes) := by
  have hWF : BlobWF b :=
    decodeCursor_blobWF fuel reg d (c := ByteCursor.mk0 bytes)
      (Nat.zero_le _) (Nat.le_refl _) hdec b hin
  have hWF' : b.start + b.len ≤ b.data.length := hWF
  have hblen : b.bytes.length = b.len := by
    unfold OpaqueBlob.bytes
    simp [List.length_take, List.length_drop]
    omega
  have hweq : WinEq ⟨b.data, b.start, b.start + b.len⟩ (ByteCursor.mk0 b.bytes) := by
    refine ⟨by show b.start ≤ b.start + b.len; omega, Nat.zero_le _, hWF, Nat.le_refl _,
      ?_, ?_⟩
    · show b.start + b.len - b.start = b.bytes.length - 0
      omega
    · show (b.data.drop b.start).take (b.start + b.len - b.start)
        = (b.bytes.drop 0).take (b.bytes.length - 0)
      rw [List.drop_zero, Nat.sub_zero, List.take_of_length_le (Nat.le_refl _),
        Nat.add_sub_cancel_left]
      rfl
  unfold OpaqueBlob.as decode
  exact decodeCursor_winEq fuel' reg' d' hweq

/-- Witness for C6: an outer record with one blob field, decoded, its blob
re-decoded as an inner record. -/
theorem blob_as_standalone_witness :
    absRes (OpaqueBlob.as ⟨[0, 0, 0, 1, 7], 4, 1⟩ 1
        [("outer", ⟨[⟨"tx", .opaqueBlob⟩], false⟩),
         ("inner", ⟨[⟨"n", .primitive (.numeric 1)⟩], false⟩)] "inner")
      = absRes (decode 1
        [("outer", ⟨[⟨"tx", .opaqueBlob⟩], false⟩),
         ("inner", ⟨[⟨"n", .primitive (.numeric 1)⟩], false⟩)] "inner"
        (OpaqueBlob.bytes ⟨[0, 0, 0, 1, 7], 4, 1⟩)) :=
  blob_as_standalone 1 1
    [("outer", ⟨[⟨"tx", .opaqueBlob⟩], false⟩),
     ("inner", ⟨[⟨"n", .primitive (.numeric 1)⟩], false⟩)]
    [("outer", ⟨[⟨"tx", .opaqueBlob⟩], false⟩),
     ("inner", ⟨[⟨"n", .primitive (.numeric 1)⟩], false⟩)]
    "outer" "inner" [0, 0, 0, 1, 7]
    (.comp [("tx", .blob ⟨[0, 0, 0, 1, 7], 4, 1⟩)])
    ⟨[0, 0, 0, 1, 7], 4, 1⟩
    (by simp [decode, decodeCursor, Registry.find, decodeFields, decodeField,
      ByteCursor.mk0, ByteCursor.read, ByteCursor.remaining, beNat])
    (BlobIn.inComp (List.Mem.head _) BlobIn.base)

/-! ## Claim C3: the read contract -/

/-- C3: for every well-formed ByteCursor state and count `n`, `read n` either
returns exactly `n` bytes and advances the offset by exactly `n` (leaving
buffer and end offset untouched), or fails with `TruncatedInput`; it fails
with `TruncatedInput` if and only if `remaining < n`. -/
theorem read_contract (c : ByteCursor) (n : Nat) (hwf : c.WF) :
    (∀ bs c', c.read n = .ok (bs, c') →
       bs.length = n ∧ c'.off = c.off + n ∧ c'.buf = c.buf ∧ c'.stop = c.stop) ∧
    (c.read n = .error .truncatedInput ↔ c.remaining < n) := by
  obtain ⟨hos, hsl⟩ := hwf
  constructor
  · intro bs c' h
    obtain ⟨hle, hbs, hc'⟩ := ByteCursor.read_ok_inv h
    subst hbs; subst hc'
    refine ⟨?_, rfl, rfl, rfl⟩
    have : n ≤ c.buf.length - c.off := by
      have : c.remaining = c.stop - c.off := rfl
      omega
    simp [List.length_take, List.length_drop]
    omega
  · constructor
    · intro h
      by_contra hlt
      rw [ByteCursor.read_of_le (Nat.not_lt.mp hlt)] at h
      simp at h
    · exact ByteCursor.read_of_lt

/-- Witness for C3 at a concrete cursor. -/
theorem read_contract_witness :
    (ByteCursor.WF ⟨[5, 6, 7], 0, 3⟩) ∧
    ((∀ bs c', ByteCursor.read ⟨[5, 6, 7], 0, 3⟩ 2 = .ok (bs, c') →
        bs.length = 2 ∧ c'.off = 0 + 2 ∧ c'.buf = [5, 6, 7] ∧ c'.stop = 3) ∧
     (ByteCursor.read ⟨[5, 6, 7], 0, 3⟩ 2 = .error .truncatedInput ↔
        ByteCursor.remaining ⟨[5, 6, 7], 0, 3⟩ < 2)) :=
  ⟨by decide, read_contract ⟨[5, 6, 7], 0, 3⟩ 2 (by decide)⟩

/-! ## Claim C4: the cursor invariant -/

/-- C4: `off ≤ stop` (within the buffer) holds on construction and is
preserved by every read; a failing read leaves the cursor unchanged rather
than advancing past the end, and `peek` is exactly `read` without the
advance. -/
theorem cursor_invariant :
    (∀ b : List Nat, (ByteCursor.mk0 b).WF) ∧
    (∀ (c : ByteCursor) (n : Nat), c.WF → (c.stepRead n).WF) ∧
    (∀ (c : ByteCursor) (n : Nat) (bs : List Nat) (c' : ByteCursor),
        c.read n = .ok (bs, c') → c'.off = c.off + n) ∧
    (∀ (c : ByteCursor) (n : Nat), c.read n = .error .truncatedInput → c.stepRead n = c) ∧
    (∀ (c : ByteCursor) (n : Nat), c.peek n = (c.read n).map Prod.fst) := by
  refine ⟨?_, ?_, ?_, ?_, ?_⟩
  · intro b; exact ⟨Nat.zero_le _, Nat.le_refl _⟩
  · intro c n hwf
    unfold ByteCursor.stepRead
    cases hr : c.read n with
    | error e => exact hwf
    | ok r =>
      obtain ⟨bs, c'⟩ := r
      obtain ⟨hle, _, hc'⟩ := ByteCursor.read_ok_inv hr
      rw [hc']
      have hre : n ≤ c.stop - c.off := hle
      have hos := hwf.1
      exact ⟨by show c.off + n ≤ c.stop; omega, hwf.2⟩
  · intro c n bs c' h
    obtain ⟨_, _, hc'⟩ := ByteCursor.read_ok_inv h
    rw [hc']
  · intro c n h
    unfold ByteCursor.stepRead
    rw [h]
  · intro c n
    unfold ByteCursor.peek ByteCursor.read
    split <;> rfl

/-- Witness for C4 at concrete cursors. -/
theorem cursor_invariant_witness :
    (ByteCursor.mk0 [1, 2]).WF ∧
    (ByteCursor.stepRead ⟨[1, 2], 0, 2⟩ 1).WF ∧
    (ByteCursor.stepRead ⟨[1, 2], 1, 2⟩ 5 = ⟨[1, 2], 1, 2⟩) ∧
    (ByteCursor.peek ⟨[1, 2], 0, 2⟩ 1 = (ByteCursor.read ⟨[1, 2], 0, 2⟩ 1).map Prod.fst) :=
  ⟨cursor_invariant.1 [1, 2],
   cursor_invariant.2.1 ⟨[1, 2], 0, 2⟩ 1 (by decide),
   cursor_invariant.2.2.2.1 ⟨[1, 2], 1, 2⟩ 5 (ByteCursor.read_of_lt (by decide)),
   cursor_invariant.2.2.2.2 ⟨[1, 2], 0, 2⟩ 1⟩

/-! ## Claim C5: the registry contract -/

/-- C5: `register` inserts when the descriptor is unbound, is a no-op on
re-registration of the identical plan, fails with `DuplicateSchema` on a
conflicting plan, and `resolve` fails with `UnknownSchema` exactly when the
descriptor is unbound. -/
theorem registry_contract (reg : Registry) (d : TypeDescriptor) (p p' : DecodingPlan) :
    (reg.find d = none → reg.register d p = .ok ((d, p) :: reg)) ∧
    (reg.find d = some p → reg.register d p = .ok reg) ∧
    (reg.find d = some p' → p' ≠ p → reg.register d p = .error .duplicateSchema) ∧
    (reg.resolve d = .error .unknownSchema ↔ reg.find d = none) := by
  refine ⟨?_, ?_, ?_, ?_⟩
  · intro h; simp [Registry.register, h]
  · intro h; simp [Registry.register, h]
  · intro h hne; simp [Registry.register, h, hne]
  · unfold Registry.resolve
    cases h : reg.find d <;> simp

/-- Witness for C5 at a concrete registry. -/
theorem registry_contract_witness :
    (Registry.register [] "wire" ⟨[], false⟩ = .ok [("wire", ⟨[], false⟩)]) ∧
    (Registry.register [("wire", ⟨[], false⟩)] "wire" ⟨[], false⟩ =
      .ok [("wire", ⟨[], false⟩)]) ∧
    (Registry.register [("wire", ⟨[], false⟩)] "wire" ⟨[], true⟩ =
      .error .duplicateSchema) ∧
    (Registry.resolve [("wire", ⟨[], false⟩)] "sig" = .error .unknownSchema) :=
  ⟨(registry_contract [] "wire" ⟨[], false⟩ ⟨[], false⟩).1 (by decide),
   (registry_contract [("wire", ⟨[], false⟩)] "wire" ⟨[], false⟩ ⟨[], false⟩).2.1 (by decide),
   (registry_contract [("wire", ⟨[], false⟩)] "wire" ⟨[], true⟩ ⟨[], false⟩).2.2.1
     (by decide) (by decide),
   (registry_contract [("wire", ⟨[], false⟩)] "sig" ⟨[], false⟩ ⟨[], false⟩).2.2.2.mpr
     (by decide)⟩

/-! ## Claim C9: the dumper is pure and total -/

/-- C9: `dump` is a pure deterministic total function — applying it twice to
the same byte range gives identical output — and non-printable bytes are
rendered as the placeholder glyph `'.'` rather than causing a failure. -/
theorem dump_deterministic :
    (∀ bs : List Nat, dump bs = dump bs) ∧
    (∀ b : Nat, ¬(32 ≤ b ∧ b ≤ 126) → renderByte b = '.') := by
  refine ⟨fun _ => rfl, fun b h => ?_⟩
  simp [renderByte, h]

/-- Witness for C9 at a concrete byte range and a non-printable byte. -/
theorem dump_deterministic_witness :
    dump [0, 65, 255] = dump [0, 65, 255] ∧ renderByte 7 = '.' :=
  ⟨dump_deterministic.1 [0, 65, 255], dump_deterministic.2 7 (by decide)⟩

/-! ## Claim C7: the concrete string-field scenario -/

/-- C7: decoding the buffer `[0x01, 0x00,0x00,0x00,0x03, 'a','b','c']`
against a plan declaring the single length-prefixed string field `field1`
succeeds and yields the composite value `{field1: "abc"}`. -/
theorem scenario_string_field (fuel : Nat) (reg : Registry) (d : TypeDescriptor) (ext : Bool)
    (hplan : reg.find d = some ⟨[⟨"field1", .primitive .str⟩], ext⟩) :
    decode fuel reg d [0x01, 0x00, 0x00, 0x00, 0x03, 97, 98, 99] =
      .ok (.comp [("field1", .str "abc")]) := by
  simp [decode, decodeCursor, hplan, decodeFields, decodeField,
    ByteCursor.mk0, ByteCursor.read, ByteCursor.remaining, beNat]

/-- Witness for C7 at a concrete registry. -/
theorem scenario_string_field_witness :
    decode 1 [("rec", ⟨[⟨"field1", .primitive .str⟩], false⟩)] "rec"
        [0x01, 0x00, 0x00, 0x00, 0x03, 97, 98, 99] =
      .ok (.comp [("field1", .str "abc")]) :=
  scenario_string_field 1 [("rec", ⟨[⟨"field1", .primitive .str⟩], false⟩)] "rec" false
    (by decide)

/-! ## Claim C10: the driver's empty-input handling (from main.cpp) -/

/-- C10: if the driver's file read yields an empty byte string it prints
`Failed to read file` to stderr and exits with code 1 without invoking parse
or dump; otherwise it proceeds to parse the bytes. -/
theorem driver_contract (bits : List Nat) :
    (bits = [] → mainDriver bits =
      { exitCode := 1, errOut := some "Failed to read file"
        parsedOuter := false, dumped := false, parsedInner := false }) ∧
    (bits ≠ [] → mainDriver bits =
      { exitCode := 0, errOut := none
        parsedOuter := true, dumped := true, parsedInner := true }) := by
  constructor
  · intro h; subst h; rfl
  · intro h
    simp [mainDriver, List.isEmpty_iff, h]

/-- Witness for C10 on an empty and a non-empty input. -/
theorem driver_contract_witness :
    mainDriver [] =
      { exitCode := 1, errOut := some "Failed to read file"
        parsedOuter := false, dumped := false, parsedInner := false } ∧
    mainDriver [42] =
      { exitCode := 0, errOut := none
        parsedOuter := true, dumped := true, parsedInner := true } :=
  ⟨(driver_contract []).1 rfl, (driver_contract [42]).2 (by decide)⟩

end Corda
